import Mathlib

/-!
Verification of the pubgrub-crates-benchmark resolver encoder.

This file shallowly embeds the resolver core of `src/lib.rs` together with
the version-set wrapper of `src/rc_semver_pubgrub.rs`.  Components of the
repository that are only declared here (the `names`, `index_data` and
`hasher` modules, and the external SemVer library) are modelled from the
specification; each such definition carries a doc comment saying so.
-/

set_option autoImplicit false

namespace Resolver

/-- Modelled from the spec: a SemVer version from the external `semver`
library, restricted to its numeric `major.minor.patch` triple (pre-release
and build metadata play no role in the embedded code paths). -/
structure Version where
  major : Nat
  minor : Nat
  patch : Nat
deriving DecidableEq, Repr

/-- Lexicographic strict order on versions, mirroring `semver::Version` order
on the numeric triple. -/
def Version.lt (a b : Version) : Bool :=
  if a.major ≠ b.major then a.major < b.major
  else if a.minor ≠ b.minor then a.minor < b.minor
  else a.patch < b.patch

/-- Lexicographic order on versions (non-strict). -/
def Version.le (a b : Version) : Bool :=
  a = b || Version.lt a b

/-- `SemverCompatibility` from the external semver-pubgrub library: the
SemVer caret compatibility class of a version. -/
inductive SemverCompatibility where
  | Major (n : Nat)
  | Minor (n : Nat)
  | Patch (n : Nat)
deriving DecidableEq, Repr

/-- `SemverCompatibility::from(&Version)`: `Major(x)` for `x ≥ 1`, else
`Minor(y)` for `0.y` with `y > 0`, else `Patch(z)`. -/
def compatOf (v : Version) : SemverCompatibility :=
  if v.major > 0 then .Major v.major
  else if v.minor > 0 then .Minor v.minor
  else .Patch v.patch

/-- The canonical placeholder version of a compatibility class. -/
def SemverCompatibility.canonical : SemverCompatibility → Version
  | .Major n => ⟨n, 0, 0⟩
  | .Minor n => ⟨0, n, 0⟩
  | .Patch n => ⟨0, 0, n⟩

/-- Modelled from the spec: a SemVer requirement (`semver::VersionReq`) of
the external library, as structured data with executable matching. -/
inductive VersionReq where
  | exact (v : Version)
  | caret (v : Version)
  | ge (lo : Version)
  | geLt (lo hi : Version)
  | any
deriving DecidableEq, Repr

/-- Modelled from the spec: `VersionReq::matches`. -/
def reqMatches (r : VersionReq) (w : Version) : Bool :=
  match r with
  | .exact v => w = v
  | .caret v => Version.le v w && compatOf w = compatOf v
  | .ge lo => Version.le lo w
  | .geLt lo hi => Version.le lo w && Version.lt w hi
  | .any => true

/-- Modelled from the spec: the external `SemverPubgrub` version-set type,
as a symbolic algebra with the constructors the embedded code builds. -/
inductive SvSet where
  | empty
  | full
  | sing (v : Version)
  | fromReq (r : VersionReq)
  | fromCompat (c : SemverCompatibility)
  | inter (a b : SvSet)
  | union (a b : SvSet)
  | compl (a : SvSet)
deriving DecidableEq, Repr

/-- Membership in a symbolic version set (`SemverPubgrub::contains`). -/
def SvSet.contains : SvSet → Version → Bool
  | .empty, _ => false
  | .full, _ => true
  | .sing v, w => w = v
  | .fromReq r, w => reqMatches r w
  | .fromCompat c, w => compatOf w = c
  | .inter a b, w => a.contains w && b.contains w
  | .union a b, w => a.contains w || b.contains w
  | .compl a, w => !a.contains w

/-- Modelled from the spec: `SemverPubgrub::only_one_compatibility_range`,
`some c` when the set provably lies inside the single compatibility class
`c`; conservative `none` on compound sets. -/
def SvSet.onlyOneCompatibilityRange : SvSet → Option SemverCompatibility
  | .sing v => some (compatOf v)
  | .fromCompat c => some c
  | .fromReq (.exact v) => some (compatOf v)
  | .fromReq (.caret v) => some (compatOf v)
  | _ => none

/-- Modelled from the spec: `SemverPubgrub::as_singleton`, recognizing the
memoized singleton constructor. -/
def SvSet.asSingleton : SvSet → Option Version
  | .sing v => some v
  | _ => none

/-- Modelled from the spec: the included upper bound of
`SemverPubgrub::bounding_range`, defined on the singleton sets the `Links`
code path actually receives. -/
def SvSet.includedUpperBound : SvSet → Option Version
  | .sing v => some v
  | _ => none

/-- Modelled from the spec: `FeatureNamespace` from the `names` module — a
feature label is either a named feature or an optional-dep activation. -/
inductive FeatureNamespace where
  | Feat (s : String)
  | Dep (s : String)
deriving DecidableEq, Repr

/-- Modelled from the spec: `FeatureNamespace::new` recognizes the prefix
`dep:` as a `Dep(...)` label; everything else is `Feat(...)`. -/
def FeatureNamespace.new (s : String) : FeatureNamespace :=
  match s.data with
  | 'd' :: 'e' :: 'p' :: ':' :: rest => .Dep ⟨rest⟩
  | _ => .Feat s

/-- Modelled from the spec: the `Names` sum of virtual package identities
from the `names` module. -/
inductive Names where
  | Bucket (package : String) (compat : SemverCompatibility) (isRoot : Bool)
  | BucketFeatures (package : String) (compat : SemverCompatibility) (label : FeatureNamespace)
  | BucketDefaultFeatures (package : String) (compat : SemverCompatibility)
  | Wide (package : String) (req : VersionReq) (parent : String) (parentCompat : SemverCompatibility)
  | WideFeatures (package : String) (req : VersionReq) (parent : String)
      (parentCompat : SemverCompatibility) (label : FeatureNamespace)
  | WideDefaultFeatures (package : String) (req : VersionReq) (parent : String)
      (parentCompat : SemverCompatibility)
  | Links (key : String)
deriving DecidableEq, Repr

/-- Modelled from the spec: deriving the feature shard of a name.  On a
`Bucket`/`Wide` it yields the corresponding feature-carrying variant; on a
shard that already carries a feature marker it replaces that marker (the
code inserts `self.with_features(...)` on feature shards to address sibling
shards of the same bucket). -/
def Names.with_features : Names → FeatureNamespace → Names
  | .Bucket p c _, f => .BucketFeatures p c f
  | .BucketFeatures p c _, f => .BucketFeatures p c f
  | .BucketDefaultFeatures p c, f => .BucketFeatures p c f
  | .Wide p r par pc, f => .WideFeatures p r par pc f
  | .WideFeatures p r par pc _, f => .WideFeatures p r par pc f
  | .WideDefaultFeatures p r par pc, f => .WideFeatures p r par pc f
  | .Links l, _ => .Links l

/-- Modelled from the spec: deriving the default-features shard of a name. -/
def Names.with_default_features : Names → Names
  | .Bucket p c _ => .BucketDefaultFeatures p c
  | .BucketFeatures p c _ => .BucketDefaultFeatures p c
  | .BucketDefaultFeatures p c => .BucketDefaultFeatures p c
  | .Wide p r par pc => .WideDefaultFeatures p r par pc
  | .WideFeatures p r par pc _ => .WideDefaultFeatures p r par pc
  | .WideDefaultFeatures p r par pc => .WideDefaultFeatures p r par pc
  | .Links l => .Links l

/-- Modelled from the spec: the real crate name a virtual package refers to. -/
def Names.crate : Names → String
  | .Bucket p _ _ => p
  | .BucketFeatures p _ _ => p
  | .BucketDefaultFeatures p _ => p
  | .Wide p _ _ _ => p
  | .WideFeatures p _ _ _ _ => p
  | .WideDefaultFeatures p _ _ _ => p
  | .Links l => l

/-- `crates_index::DependencyKind`. -/
inductive DepKind where
  | Normal
  | Build
  | Dev
deriving DecidableEq, Repr

/-- Modelled from the spec: `index_data::Dependency` — one dependency record
of a version record. -/
structure Dependency where
  name : String
  package_name : String
  req : VersionReq
  pubgrub_req : SvSet
  kind : DepKind
  optional : Bool
  default_features : Bool
  features : List String
deriving DecidableEq, Repr

/-- Modelled from the spec: `index_data::Version` — the index record of one
published version of a crate. -/
structure VersionRecord where
  name : String
  vers : Version
  yanked : Bool
  links : Option String
  features : List (String × List String)
  deps : List Dependency
deriving DecidableEq, Repr

/-- The group of dependency records carrying a given alias
(`index_ver.deps.get(alias)` on the grouped dependency list). -/
def depsGet (deps : List Dependency) (alias_ : String) : List Dependency :=
  deps.filter (fun d => d.name = alias_)

/-- Lookup of a feature entry (`features.get(name)` on the feature map). -/
def featuresGet (fs : List (String × List String)) (name : String) : Option (List String) :=
  match fs.find? (fun p => p.1 = name) with
  | some p => some p.2
  | none => none

/-- `features.contains_key(name)`. -/
def featuresContains (fs : List (String × List String)) (name : String) : Bool :=
  (featuresGet fs name).isSome

/-- Association-list lookup keyed by strings (the `HashMap::get` /
`BTreeMap::get` calls of the source). -/
def lookupStr {α : Type} (l : List (String × α)) (k : String) : Option α :=
  (l.find? (fun p => p.1 = k)).map (fun p => p.2)

/-- The `Index` dependency provider: the in-memory crates map (each crate's
versions listed ascending, as in the `BTreeMap`) and the optional
past-result overlay (each entry ascending, as in the `BTreeSet`). -/
structure Index where
  crates : List (String × List (Version × VersionRecord))
  pastResult : Option (List (String × List Version))
deriving Repr

/-- The ascending version list of a crate in the raw crates map. -/
def Index.cratesVersions (idx : Index) (name : String) : List Version :=
  match lookupStr idx.crates name with
  | some l => l.map (fun p => p.1)
  | none => []

/-- `data.contains_key(v)` on a crate's `BTreeMap`. -/
def Index.cratesHasVersion (idx : Index) (name : String) (v : Version) : Bool :=
  match lookupStr idx.crates name with
  | some l => l.any (fun p => p.1 = v)
  | none => false

/-- `Index::get_versions`: the versions of `name` visible in the view,
newest first.  With a past-result overlay only versions present in both the
overlay and the crates map are yielded, still in descending order. -/
def Index.get_versions (idx : Index) (name : String) : List Version :=
  match idx.pastResult with
  | some past =>
    match lookupStr past name with
    | some vs => vs.reverse.filter (fun v => idx.cratesHasVersion name v)
    | none => []
  | none => (idx.cratesVersions name).reverse

/-- `Index::get_version`: the record of `(name, ver)`, requiring overlay
membership when a past-result overlay is installed. -/
def Index.get_version (idx : Index) (name : String) (ver : Version) : Option VersionRecord :=
  let core :=
    match lookupStr idx.crates name with
    | some l => (l.find? (fun p => p.1 = ver)).map (fun p => p.2)
    | none => none
  match idx.pastResult with
  | some past =>
    match lookupStr past name with
    | some vs => if vs.any (fun v => v = ver) then core else none
    | none => none
  | none => core

/-- `Index::only_one_compatibility_range_in_data`: scan the visible versions
matching `dep.req`; if they all fall in one compatibility class return it
(defaulting to `Patch(0)` when nothing matches), else `none`. -/
def Index.only_one_compatibility_range_in_data (idx : Index) (dep : Dependency) :
    Option SemverCompatibility :=
  match ((idx.get_versions dep.package_name).filter
      (fun v => reqMatches dep.req v)).map compatOf with
  | [] => some (.Patch 0)
  | first :: rest => if rest.any (fun c => c ≠ first) then none else some first

/-- `Index::from_dep`: a dependency becomes a `Bucket` constrained by its
pre-converted requirement when a single compatibility class is determined,
and otherwise a full-range `Wide` shard parameterized by the asker. -/
def Index.from_dep (idx : Index) (dep : Dependency) (parent : String)
    (compat : SemverCompatibility) : Names × SvSet :=
  match dep.pubgrub_req.onlyOneCompatibilityRange.orElse
      (fun _ => idx.only_one_compatibility_range_in_data dep) with
  | some c => (.Bucket dep.package_name c false, dep.pubgrub_req)
  | none => (.Wide dep.package_name dep.req parent compat, .full)

/-- `DependencyConstraints`: the emitted constraint map, as an association
list in insertion order. -/
abbrev DepsMap : Type := List (Names × SvSet)

/-- `deps_insert`: inserting twice under one key intersects the ranges. -/
def depsInsert (m : DepsMap) (k : Names) (r : SvSet) : DepsMap :=
  match m with
  | [] => [(k, r)]
  | (k0, r0) :: rest =>
    if k0 = k then (k0, SvSet.inter r0 r) :: rest else (k0, r0) :: depsInsert rest k r

/-- Lookup in a constraint map. -/
def depsLookup (m : DepsMap) (k : Names) : Option SvSet :=
  (List.find? (fun p => p.1 = k) m).map (fun p => p.2)

/-- A simple content hash of a string, reduced modulo `2 ^ 64`. -/
def strHash (s : String) : Nat :=
  s.data.foldl (fun h c => (h * 31 + c.toNat) % (2 ^ 64)) 7

/-- Modelled from the spec: the stable 64-bit hash of
`(virtual_package, version)` from the `hasher` module feeding the `Links`
singleton version; the concrete mixing function is immaterial to the
properties proved here, only that it is a pure function of its inputs. -/
def stableHash64 (n : Names) (v : Version) : Nat :=
  (strHash n.crate * 1000003 + v.major * 10007 + v.minor * 101 + v.patch) % (2 ^ 64)

/-- `Dependencies` from the solver interface: a constraint map or an
unavailability signal. -/
inductive Deps where
  | Available (constraints : DepsMap)
  | Unavailable (reason : String)
deriving DecidableEq, Repr

/-- Split a character list at its first slash. -/
def splitSlashChars : List Char → Option (List Char × List Char)
  | [] => none
  | c :: rest =>
    if c = '/' then some ([], rest)
    else
      match splitSlashChars rest with
      | some p => some (c :: p.1, p.2)
      | none => none

/-- Rust `str::split_once('/')`: split at the first slash. -/
def splitOnce (s : String) : Option (String × String) :=
  match splitSlashChars s.data with
  | some p => some (⟨p.1⟩, ⟨p.2⟩)
  | none => none

/-- Rust `str::strip_suffix('?')` for the weak-activation question mark. -/
def stripQm (s : String) : Option String :=
  match s.data.getLast? with
  | some c => if c = '?' then some ⟨s.data.dropLast⟩ else none
  | none => none

/-- The three insertions the encoder performs per accepted dependency
record: the child itself, its default-features shard when requested, and a
feature shard per listed feature. -/
def addDepEdges (idx : Index) (parentName : String) (v : Version) (dep : Dependency)
    (acc : DepsMap) : DepsMap :=
  let cr := idx.from_dep dep parentName (compatOf v)
  let acc := depsInsert acc cr.1 cr.2
  let acc :=
    if dep.default_features then depsInsert acc cr.1.with_default_features cr.2 else acc
  dep.features.foldl
    (fun a f => depsInsert a (cr.1.with_features (FeatureNamespace.new f)) cr.2) acc

/-- The dependency loop of the `Bucket` branch: skip `Dev` and `optional`
records unless resolving the all-features root. -/
def bucketDepsLoop (idx : Index) (name : String) (v : Version) (allF : Bool)
    (ds : List Dependency) (acc : DepsMap) : DepsMap :=
  ds.foldl
    (fun a dep =>
      if dep.kind = .Dev ∧ allF = false then a
      else if dep.optional = true ∧ allF = false then a
      else addDepEdges idx name v dep a)
    acc

/-- The synthetic all-features walk of the root `Bucket` branch: every
`D/F` or `D?/F` feature expression activates `Feat(F)` on the dep aliased
`D`. -/
def allFeaturesLoop (idx : Index) (name : String) (v : Version) (iv : VersionRecord)
    (acc : DepsMap) : DepsMap :=
  iv.features.foldl
    (fun a entry =>
      entry.2.foldl
        (fun a val =>
          match splitOnce val with
          | some (dp, depFeat) =>
            let depName := (stripQm dp).getD dp
            (depsGet iv.deps depName).foldl
              (fun a com =>
                let cr := idx.from_dep com name (compatOf v)
                depsInsert a (cr.1.with_features (FeatureNamespace.new depFeat)) cr.2)
              a
          | none => a)
        a)
    acc

/-- The expression loop of the `BucketFeatures(Feat)` branch. -/
def featValLoop (idx : Index) (package : Names) (name : String) (v : Version)
    (iv : VersionRecord) (feat : String) (vals : List String) (acc : DepsMap) : DepsMap :=
  vals.foldl
    (fun a val =>
      match splitOnce val with
      | some (dp, depFeat) =>
        let weakOpt := stripQm dp
        let depName := weakOpt.getD dp
        (depsGet iv.deps depName).foldl
          (fun a dep =>
            if dep.kind = .Dev then a
            else
              let cr := idx.from_dep dep name (compatOf v)
              let a :=
                if dep.optional then
                  let a := depsInsert a (package.with_features (.Dep depName)) (.sing v)
                  if weakOpt = none ∧ depName ≠ feat ∧
                      featuresContains iv.features depName = true then
                    depsInsert a (package.with_features (.Feat depName)) (.sing v)
                  else a
                else a
              depsInsert a (cr.1.with_features (.Feat depFeat)) cr.2)
          a
      | none => depsInsert a (package.with_features (FeatureNamespace.new val)) (.sing v))
    acc

/-- The dependency loop of the `BucketFeatures(Dep)` branch: only optional
non-`Dev` records aliased by the label count; the boolean records whether
any matched. -/
def depActivationLoop (idx : Index) (name : String) (v : Version)
    (ds : List Dependency) (acc : DepsMap × Bool) : DepsMap × Bool :=
  ds.foldl
    (fun st dep =>
      if dep.optional = false then st
      else if dep.kind = .Dev then st
      else (addDepEdges idx name v dep st.1, true))
    acc

/-- `Index::get_dependencies` (the `DependencyProvider` impl): per-variant
constraint emission; `.error ()` models the `SomeError` escape. -/
def getDependencies (idx : Index) (package : Names) (version : Version) :
    Except Unit Deps :=
  match package with
  | .Bucket name _major allFeatures =>
    match idx.get_version name version with
    | none => .error ()
    | some iv =>
      if iv.yanked then .ok (.Unavailable "yanked: Bucket")
      else
        let deps : DepsMap :=
          match iv.links with
          | some link => [(.Links link, .sing ⟨stableHash64 package version, 0, 0⟩)]
          | none => []
        let deps := bucketDepsLoop idx name version allFeatures iv.deps deps
        let deps := if allFeatures then allFeaturesLoop idx name version iv deps else deps
        .ok (.Available deps)
  | .BucketFeatures name _major (.Feat feat) =>
    match idx.get_version name version with
    | none => .error ()
    | some iv =>
      if iv.yanked then .ok (.Unavailable "yanked: BucketFeatures Feat")
      else
        let deps : DepsMap := [(.Bucket name (compatOf version) false, .sing version)]
        match featuresGet iv.features feat with
        | some vals =>
          .ok (.Available (featValLoop idx package name version iv feat vals deps))
        | none => .ok (.Unavailable "no matching feat nor dep")
  | .BucketDefaultFeatures name _major =>
    match idx.get_version name version with
    | none => .error ()
    | some iv =>
      if iv.yanked then .ok (.Unavailable "yanked: BucketFeatures DefaultFeatures")
      else
        let deps : DepsMap := [(.Bucket name (compatOf version) false, .sing version)]
        let deps :=
          if featuresContains iv.features "default" then
            depsInsert deps (package.with_features (.Feat "default")) (.sing version)
          else deps
        .ok (.Available deps)
  | .BucketFeatures name _major (.Dep feat) =>
    match idx.get_version name version with
    | none => .error ()
    | some iv =>
      if iv.yanked then .ok (.Unavailable "yanked: BucketFeatures Dep")
      else
        let deps : DepsMap := [(.Bucket name (compatOf version) false, .sing version)]
        let st := depActivationLoop idx name version (depsGet iv.deps feat) (deps, false)
        if st.2 then .ok (.Available st.1) else .ok (.Unavailable "no matching feat")
  | .Wide name req _ _ =>
    let compat := compatOf version
    .ok (.Available [(.Bucket name compat false, .inter (.fromReq req) (.fromCompat compat))])
  | .WideFeatures name req parent parentCom feat =>
    let compat := compatOf version
    .ok (.Available
      [(.Wide name req parent parentCom, .sing version),
        (.BucketFeatures name compat feat, .inter (.fromReq req) (.fromCompat compat))])
  | .WideDefaultFeatures name req parent parentCom =>
    let compat := compatOf version
    .ok (.Available
      [(.Wide name req parent parentCom, .sing version),
        (.BucketDefaultFeatures name compat, .inter (.fromReq req) (.fromCompat compat))])
  | .Links _ => .ok (.Available [])

/-- The `Wide*` arm of `choose_version`: newest-first versions matching the
original requirement, projected to canonical compatibility representatives,
first one inside `range`. -/
def wideChoose (idx : Index) (crateName : String) (req : VersionReq) (range : SvSet) :
    Option Version :=
  ((((idx.get_versions crateName).filter (fun v => reqMatches req v)).map compatOf).map
    SemverCompatibility.canonical).find? (fun v => range.contains v)

/-- `Index::choose_version`. -/
def chooseVersion (idx : Index) (package : Names) (range : SvSet) :
    Except Unit (Option Version) :=
  match package with
  | .Links _ =>
    match range.includedUpperBound with
    | some v => .ok (some v)
    | none => .error ()
  | .Wide _ req _ _ => .ok (wideChoose idx package.crate req range)
  | .WideFeatures _ req _ _ _ => .ok (wideChoose idx package.crate req range)
  | .WideDefaultFeatures _ req _ _ => .ok (wideChoose idx package.crate req range)
  | .Bucket _ _ _ => .ok ((idx.get_versions package.crate).find? (fun v => range.contains v))
  | .BucketFeatures _ _ _ =>
    .ok ((idx.get_versions package.crate).find? (fun v => range.contains v))
  | .BucketDefaultFeatures _ _ =>
    .ok ((idx.get_versions package.crate).find? (fun v => range.contains v))

/-- `usize::MAX` on the 64-bit targets the benchmark runs on. -/
def usizeMax : Nat := 2 ^ 64 - 1

/-- Rust `usize::saturating_add(1)`. -/
def satAdd1 (n : Nat) : Nat := min (n + 1) usizeMax

/-- Itertools `dedup`: collapse consecutive duplicates. -/
def dedupConsec : List SemverCompatibility → List SemverCompatibility
  | [] => []
  | [a] => [a]
  | a :: b :: rest =>
    if a = b then dedupConsec (b :: rest) else a :: dedupConsec (b :: rest)

/-- `Index::count_wide_matches`: 1 when the range already fixes one
compatibility class, else the number of distinct classes with a version
matching both the requirement and the range. -/
def countWideMatches (idx : Index) (range : SvSet) (crateName : String)
    (req : VersionReq) : Nat :=
  if range.onlyOneCompatibilityRange.isSome then 1
  else
    (((dedupConsec
        (((idx.get_versions crateName).filter (fun v => reqMatches req v)).map
          compatOf)).map SemverCompatibility.canonical).filter
      (fun v => range.contains v)).length

/-- `Index::count_matches`: 1 for a singleton range without consulting the
index, else the number of visible versions inside the range. -/
def countMatches (idx : Index) (range : SvSet) (crateName : String) : Nat :=
  if range.asSingleton.isSome then 1
  else ((idx.get_versions crateName).filter (fun v => range.contains v)).length

/-- The `match_count` component of `Index::prioritize` (the value wrapped in
`Reverse`, so smaller means higher priority). -/
def matchCount (idx : Index) (package : Names) (range : SvSet) : Nat :=
  match package with
  | .Links _ => usizeMax
  | .Wide _ req _ _ => countWideMatches idx range package.crate req
  | .WideFeatures _ req _ _ _ => satAdd1 (countWideMatches idx range package.crate req)
  | .WideDefaultFeatures _ req _ _ => satAdd1 (countWideMatches idx range package.crate req)
  | .Bucket _ _ _ => countMatches idx range package.crate
  | .BucketFeatures _ _ _ => satAdd1 (countMatches idx range package.crate)
  | .BucketDefaultFeatures _ _ => satAdd1 (countMatches idx range package.crate)

/-- `Index::prioritize`: conflict weight first, then the reversed match
count (the second component is compared reversed by the solver). -/
def prioritize (idx : Index) (package : Names) (range : SvSet)
    (affectedCount culpritCount : Nat) : Nat × Nat :=
  (affectedCount + culpritCount, matchCount idx package range)

/-- `TIME_MAKE_FILE`: the diagnostic-dump threshold in seconds. -/
def TIME_MAKE_FILE : ℚ := 40

/-- `TIME_CUT_OFF`: four times the diagnostic-dump threshold. -/
def TIME_CUT_OFF : ℚ := TIME_MAKE_FILE * 4

/-- `Index::should_cancel`, as a pure step on the call counter given the
elapsed seconds since the last `reset_time`: returns the outcome together
with the post-call counter (a `u64`, hence the wrap modulo `2 ^ 64`). -/
def shouldCancel (count : Nat) (elapsed : ℚ) : Except Unit Unit × Nat :=
  let next := (count + 1) % 2 ^ 64
  if count % 64 = 0 ∧ TIME_CUT_OFF < elapsed then (.error (), next) else (.ok (), next)

/-- `RcSemverPubgrub`: a shared version set; `ptr` models the `Rc`
allocation identity (`Rc::ptr_eq` is equality of `ptr`).  Sets produced by
the algebra carry a synthetic pointer; no theorem below depends on the
pointer of a freshly computed set. -/
structure RcSv where
  ptr : Nat
  inner : SvSet
deriving DecidableEq, Repr

/-- The process-wide shared `empty` constant. -/
def rcEmpty : RcSv := ⟨0, .empty⟩

/-- The per-thread memoized `singleton(v)`: one allocation per version,
distinct from the `empty` allocation. -/
def RcSv.singleton (v : Version) : RcSv :=
  ⟨1 + Nat.pair v.major (Nat.pair v.minor v.patch), .sing v⟩

/-- `RcSemverPubgrub::intersection` with its pointer-identity shortcut. -/
def RcSv.intersection (a b : RcSv) : RcSv :=
  if a.ptr = b.ptr then a else ⟨a.ptr + b.ptr + 1, .inter a.inner b.inner⟩

/-- `RcSemverPubgrub::union` with its pointer-identity shortcut. -/
def RcSv.union (a b : RcSv) : RcSv :=
  if a.ptr = b.ptr then a else ⟨a.ptr + b.ptr + 1, .union a.inner b.inner⟩

/-- `RcSemverPubgrub::is_disjoint`: the pointer-identity shortcut answers
`false`; the delegated computation of the external set library is left
unmodelled (`none`). -/
def RcSv.is_disjoint (a b : RcSv) : Option Bool :=
  if a.ptr = b.ptr then some false else none

/-- `RcSemverPubgrub::subset_of`: the pointer-identity shortcut answers
`true`; the delegated computation of the external set library is left
unmodelled (`none`). -/
def RcSv.subset_of (a b : RcSv) : Option Bool :=
  if a.ptr = b.ptr then some true else none

/-- Semantic disjointness of two symbolic version sets. -/
def disjointSem (a b : SvSet) : Prop :=
  ∀ v : Version, ¬(a.contains v = true ∧ b.contains v = true)

instance exceptDecEq {ε α : Type} [DecidableEq ε] [DecidableEq α] :
    DecidableEq (Except ε α) := fun a b =>
  match a, b with
  | .error x, .error y => decidable_of_iff (x = y) (by simp)
  | .ok x, .ok y => decidable_of_iff (x = y) (by simp)
  | .error _, .ok _ => isFalse (by simp)
  | .ok _, .error _ => isFalse (by simp)

/-- A solver-returned solution map (`SelectedDependencies`), as an
association list. -/
abbrev SolMap : Type := List (Names × Version)

/-- Lookup of a package in a solution map. -/
def solLookup (m : SolMap) (k : Names) : Option Version :=
  (List.find? (fun p => p.1 = k) m).map (fun p => p.2)

/-- How a run of `Index::check` ends before reaching success: an early
`return false`, or a panic (`unwrap` on a missing entry). -/
inductive Exit where
  | panic
  | fails
deriving DecidableEq, Repr

/-- One entry of the first checker loop: `get_dependencies` must be
available and every emitted constraint must be satisfied by the map. -/
def checkDepsEntry (idx : Index) (pubmap : SolMap) (k : Names) (v : Version) :
    Except Exit Unit :=
  match getDependencies idx k v with
  | .error _ => .error .panic
  | .ok (.Unavailable _) => .error .fails
  | .ok (.Available c) =>
    if c.all (fun p =>
        match solLookup pubmap p.1 with
        | some v2 => p.2.contains v2
        | none => false) then
      .ok ()
    else .error .fails

/-- The first checker loop over all entries of the map. -/
def checkDepsLoop (idx : Index) (pubmap : SolMap) : List (Names × Version) → Except Exit Unit
  | [] => .ok ()
  | (k, v) :: rest =>
    match checkDepsEntry idx pubmap k v with
    | .error e => .error e
    | .ok () => checkDepsLoop idx pubmap rest

/-- The per-bucket state the checker reconstructs: selected version, active
feature set, active optional-dep set, default-features marker. -/
structure VEntry where
  ver : Version
  feats : List String
  depsAct : List String
  defaultFeature : Bool
deriving DecidableEq, Repr

/-- The checker's reconstructed per-bucket view. -/
abbrev VertMap : Type := List ((String × SemverCompatibility) × VEntry)

/-- Lookup in the reconstructed view. -/
def vertLookup (m : VertMap) (k : String × SemverCompatibility) : Option VEntry :=
  (List.find? (fun p => p.1 = k) m).map (fun p => p.2)

/-- In-place update of one entry of the reconstructed view. -/
def vertUpdate (m : VertMap) (k : String × SemverCompatibility) (e : VEntry) : VertMap :=
  m.map (fun p => if p.1 = k then (p.1, e) else p)

/-- Checker phase: record each non-root `Bucket` selection, rejecting
compat mismatches and duplicates. -/
def buildBuckets : SolMap → VertMap → Except Exit VertMap
  | [], acc => .ok acc
  | (names, ver) :: rest, acc =>
    match names with
    | .Bucket name cap isRoot =>
      if cap = compatOf ver then
        if isRoot then buildBuckets rest acc
        else if (vertLookup acc (name, cap)).isSome then .error .fails
        else buildBuckets rest (acc ++ [((name, cap), ⟨ver, [], [], false⟩)])
      else .error .fails
    | _ => buildBuckets rest acc

/-- Checker phase: attach each `BucketFeatures` shard to its bucket,
rejecting version mismatches and duplicate labels; a shard without a
matching bucket is an `unwrap` panic. -/
def addFeatures : SolMap → VertMap → Except Exit VertMap
  | [], acc => .ok acc
  | (names, ver) :: rest, acc =>
    match names with
    | .BucketFeatures name cap feat =>
      if cap = compatOf ver then
        match vertLookup acc (name, cap) with
        | none => .error .panic
        | some e =>
          if e.ver = ver then
            match feat with
            | .Feat f =>
              if f ∈ e.feats then .error .fails
              else addFeatures rest (vertUpdate acc (name, cap) { e with feats := f :: e.feats })
            | .Dep f =>
              if f ∈ e.depsAct then .error .fails
              else
                addFeatures rest (vertUpdate acc (name, cap) { e with depsAct := f :: e.depsAct })
          else .error .fails
      else .error .fails
    | _ => addFeatures rest acc

/-- Checker phase: attach each `BucketDefaultFeatures` shard to its bucket,
rejecting version mismatches and duplicates. -/
def addDefaults : SolMap → VertMap → Except Exit VertMap
  | [], acc => .ok acc
  | (names, ver) :: rest, acc =>
    match names with
    | .BucketDefaultFeatures name cap =>
      if cap = compatOf ver then
        match vertLookup acc (name, cap) with
        | none => .error .panic
        | some e =>
          if e.ver = ver then
            if e.defaultFeature then .error .fails
            else addDefaults rest (vertUpdate acc (name, cap) { e with defaultFeature := true })
          else .error .fails
      else .error .fails
    | _ => addDefaults rest acc

/-- Whether some reconstructed bucket fulfils a dependency record: right
package, requirement matched, listed features active, default features
active when requested. -/
def depFulfilled (verts : VertMap) (dep : Dependency) : Bool :=
  verts.any (fun p =>
    decide (p.1.1 = dep.package_name) && reqMatches dep.req p.2.ver &&
    dep.features.all (fun f => decide (f = "") || decide (f ∈ p.2.feats)) &&
    (decide (dep.default_features = false) || p.2.defaultFeature))

/-- The default-feature and dependency-fulfilment checks of the final
checker loop body, after the links bookkeeping. -/
def checkVertEntryRest (_idx : Index) (verts : VertMap) (e : VEntry) (iv : VersionRecord)
    (links2 : List String) : Except Exit (List String) :=
  if e.defaultFeature ∧ featuresContains iv.features "default" ≠ decide ("default" ∈ e.feats) then
    .error .fails
  else if iv.deps.all (fun dep =>
      if dep.optional ∧ ¬dep.name ∈ e.depsAct then true
      else if featuresContains iv.features dep.name then true
      else if dep.kind = .Dev then true
      else depFulfilled verts dep) then
    .ok links2
  else .error .fails

/-- The final checker loop body for one reconstructed bucket: reject yanked
records and duplicate `links` keys, check the default-feature bookkeeping,
and require every non-skipped dependency to be fulfilled. -/
def checkVertEntry (idx : Index) (verts : VertMap) (name : String) (e : VEntry)
    (links : List String) : Except Exit (List String) :=
  match idx.get_version name e.ver with
  | none => .error .panic
  | some iv =>
    if iv.yanked then .error .fails
    else
      match iv.links with
      | some l =>
        if l ∈ links then .error .fails
        else checkVertEntryRest idx verts e iv (l :: links)
      | none => checkVertEntryRest idx verts e iv links

/-- The final checker loop over all reconstructed buckets, threading the
set of `links` keys seen so far. -/
def checkFinalLoop (idx : Index) (verts : VertMap) :
    VertMap → List String → Except Exit Unit
  | [], _ => .ok ()
  | (k, e) :: rest, links =>
    match checkVertEntry idx verts k.1 e links with
    | .error e2 => .error e2
    | .ok links2 => checkFinalLoop idx verts rest links2

/-- The checker pipeline as the run of an `Except`: `.ok ()` is success,
`.error .fails` an early `return false`, `.error .panic` an `unwrap`
panic. -/
def checkRun (idx : Index) (root : Names) (pubmap : SolMap) : Except Exit Unit :=
  if (solLookup pubmap root).isNone then .error .fails
  else
    match checkDepsLoop idx pubmap pubmap with
    | .error e => .error e
    | .ok () =>
      match buildBuckets pubmap [] with
      | .error e => .error e
      | .ok verts0 =>
        match addFeatures pubmap verts0 with
        | .error e => .error e
        | .ok verts1 =>
          match addDefaults pubmap verts1 with
          | .error e => .error e
          | .ok verts => checkFinalLoop idx verts verts []

/-- `Index::check`: `some true` for success, `some false` for an early
`return false`, `none` when the original panics on an `unwrap`. -/
def check (idx : Index) (root : Names) (pubmap : SolMap) : Option Bool :=
  match checkRun idx root pubmap with
  | .ok () => some true
  | .error .fails => some false
  | .error .panic => none

/-- A node of the cycle-detection graph: a selected bucket keyed the way
`check_cycles` keys its map, `(package, compat, is_root)`. -/
abbrev NodeId : Type := String × SemverCompatibility × Bool

/-- The per-bucket state `check_cycles` reconstructs (version, active
features, active optional deps). -/
structure CEntry where
  ver : Version
  feats : List String
  depsAct : List String
deriving DecidableEq, Repr

/-- The reconstructed map of `check_cycles`. -/
abbrev CVertMap : Type := List (NodeId × CEntry)

/-- Lookup in the cycle detector's reconstructed map. -/
def cvertLookup (m : CVertMap) (k : NodeId) : Option CEntry :=
  (List.find? (fun p => p.1 = k) m).map (fun p => p.2)

/-- In-place update of one entry of the cycle detector's map. -/
def cvertUpdate (m : CVertMap) (k : NodeId) (e : CEntry) : CVertMap :=
  m.map (fun p => if p.1 = k then (p.1, e) else p)

/-- `check_cycles` phase: record every `Bucket` selection (root included);
compat mismatches and duplicates are panics, modelled as `none`. -/
def buildCycleBuckets : SolMap → CVertMap → Option CVertMap
  | [], acc => some acc
  | (names, ver) :: rest, acc =>
    match names with
    | .Bucket name cap isRoot =>
      if cap = compatOf ver then
        if (cvertLookup acc (name, cap, isRoot)).isSome then none
        else buildCycleBuckets rest (acc ++ [((name, cap, isRoot), ⟨ver, [], []⟩)])
      else none
    | _ => buildCycleBuckets rest acc

/-- `check_cycles` phase: attach each `BucketFeatures` shard to the
non-root bucket entry; every violation is a panic, modelled as `none`. -/
def addCycleFeatures : SolMap → CVertMap → Option CVertMap
  | [], acc => some acc
  | (names, ver) :: rest, acc =>
    match names with
    | .BucketFeatures name cap feat =>
      if cap = compatOf ver then
        match cvertLookup acc (name, cap, false) with
        | none => none
        | some e =>
          if e.ver = ver then
            match feat with
            | .Feat f =>
              if f ∈ e.feats then none
              else addCycleFeatures rest (cvertUpdate acc (name, cap, false) { e with feats := f :: e.feats })
            | .Dep f =>
              if f ∈ e.depsAct then none
              else
                addCycleFeatures rest
                  (cvertUpdate acc (name, cap, false) { e with depsAct := f :: e.depsAct })
          else none
      else none
    | _ => addCycleFeatures rest acc

/-- Outcome of a DFS visit: a back edge was found, or the visit finished
and returns the enlarged set of fully checked nodes. -/
inductive VisitRes where
  | cycle
  | done (checked : List NodeId)
deriving DecidableEq, Repr

/-- The dependency loop inside `Index::visit`: skip `Dev` records and
optional records inactive on a non-root parent; resolve each survivor via
`from_dep` and the solution map and recurse through `recur` (the next
shallower DFS level). -/
def visitDeps (idx : Index) (pubmap : SolMap)
    (recur : NodeId → List NodeId → List NodeId → Option VisitRes)
    (parentName : String) (ver : Version) (isRoot : Bool) (depsAct : List String) :
    List Dependency → List NodeId → List NodeId → Option VisitRes
  | [], _, checked => some (.done checked)
  | dep :: rest, visited, checked =>
    if dep.kind = .Dev then
      visitDeps idx pubmap recur parentName ver isRoot depsAct rest visited checked
    else if dep.optional ∧ isRoot = false ∧ ¬dep.name ∈ depsAct then
      visitDeps idx pubmap recur parentName ver isRoot depsAct rest visited checked
    else
      match solLookup pubmap (idx.from_dep dep parentName (compatOf ver)).1 with
      | none => none
      | some depVer =>
        match recur (dep.package_name, compatOf depVer, false) visited checked with
        | none => none
        | some .cycle => some .cycle
        | some (.done ch) =>
          visitDeps idx pubmap recur parentName ver isRoot depsAct rest visited ch

/-- `Index::visit`: fuel-bounded DFS with `visited` as the current stack
and `checked` as the set of explored nodes; `none` models both a panic of
the original and fuel exhaustion (the fuel chosen in `checkCycles` exceeds
the maximal nesting depth, which is bounded by the node count). -/
def visit (idx : Index) (pubmap : SolMap) (verts : CVertMap) :
    Nat → NodeId → List NodeId → List NodeId → Option VisitRes
  | 0, _, _, _ => none
  | fuel + 1, id, visited, checked =>
    if id ∈ visited then some .cycle
    else if id ∈ checked then some (.done checked)
    else
      match cvertLookup verts id with
      | none => none
      | some e =>
        match idx.get_version id.1 e.ver with
        | none => none
        | some iv =>
          visitDeps idx pubmap (fun b v2 c2 => visit idx pubmap verts fuel b v2 c2)
            id.1 e.ver id.2.2 e.depsAct iv.deps (id :: visited) (id :: checked)

/-- `Index::check_cycles`: reconstruct the per-bucket view (panics modelled
as `none`), then DFS from the root bucket; `some true` means a cycle was
found. -/
def checkCycles (idx : Index) (root : Names) (pubmap : SolMap) : Option Bool :=
  match buildCycleBuckets pubmap [] with
  | none => none
  | some verts0 =>
    match addCycleFeatures pubmap verts0 with
    | none => none
    | some verts =>
      match root with
      | .Bucket name cap isRoot =>
        match visit idx pubmap verts (verts.length + 2) (name, cap, isRoot) [] [] with
        | none => none
        | some .cycle => some true
        | some (.done _) => some false
      | _ => none

/-- The dependency edge the cycle detector walks: from node `a`, a
non-`Dev` dependency record of `a`'s index record — not skipped by the
optional-dep rule — resolved through `from_dep` and the solution map to the
child bucket `b`. -/
def cycleEdge (idx : Index) (pubmap : SolMap) (verts : CVertMap) (a b : NodeId) : Prop :=
  ∃ e iv dep depVer,
    cvertLookup verts a = some e ∧
    idx.get_version a.1 e.ver = some iv ∧
    dep ∈ iv.deps ∧
    ¬dep.kind = DepKind.Dev ∧
    ¬(dep.optional = true ∧ a.2.2 = false ∧ ¬dep.name ∈ e.depsAct) ∧
    solLookup pubmap (idx.from_dep dep a.1 (compatOf e.ver)).1 = some depVer ∧
    b = (dep.package_name, compatOf depVer, false)

/-- Reflexive-transitive reachability along a node relation. -/
inductive Reach (E : NodeId → NodeId → Prop) : NodeId → NodeId → Prop
  | refl (a : NodeId) : Reach E a a
  | step {a b c : NodeId} : E a b → Reach E b c → Reach E a c

/-- A nonempty cycle through `a`. -/
def CycleFrom (E : NodeId → NodeId → Prop) (a : NodeId) : Prop :=
  ∃ b, E a b ∧ Reach E b a

/-- A cycle lies on some node reachable from `r`. -/
def CycleReachable (E : NodeId → NodeId → Prop) (r : NodeId) : Prop :=
  ∃ x, Reach E r x ∧ CycleFrom E x

/-- The DFS stack seen bottom-up: the bottom is the root, consecutive
entries are edges, and the top has an edge to the node currently being
visited. -/
inductive StackOk (E : NodeId → NodeId → Prop) (root : NodeId) : List NodeId → NodeId → Prop
  | nil : StackOk E root [] root
  | cons {v : List NodeId} {top id : NodeId} :
      E top id → StackOk E root v top → StackOk E root (top :: v) id

/-- What holds of a fully explored (black) node: its edges stay inside the
checked set and no cycle passes through it. -/
def BlackOk (E : NodeId → NodeId → Prop) (ch : List NodeId) (x : NodeId) : Prop :=
  (∀ y, E x y → y ∈ ch) ∧ ¬CycleFrom E x

/-- The DFS invariant: every checked node not currently on the stack is
fully explored. -/
def DfsInv (E : NodeId → NodeId → Prop) (v ch : List NodeId) : Prop :=
  ∀ x, x ∈ ch → x ∉ v → BlackOk E ch x

/-- Strict descending sortedness of a version list (the iteration order of
`get_versions`). -/
abbrev SortedDesc (l : List Version) : Prop :=
  List.Pairwise (fun a b => Version.lt b a = true) l

/-- Example: the optional dependency `dep` on crate `b` used by the
weak/strong feature scenarios. -/
def exDepOptB : Dependency :=
  { name := "dep", package_name := "b", req := .caret ⟨1, 0, 0⟩,
    pubgrub_req := .fromReq (.caret ⟨1, 0, 0⟩), kind := .Normal,
    optional := true, default_features := false, features := [] }

/-- Example: crate `a` with the weak feature `f = ["dep?/g"]`. -/
def exRecAWeak : VersionRecord :=
  { name := "a", vers := ⟨1, 0, 0⟩, yanked := false, links := none,
    features := [("f", ["dep?/g"])], deps := [exDepOptB] }

/-- Example: crate `a` with the strong feature `f = ["dep/g"]` and a
namesake feature `dep`. -/
def exRecAStrong : VersionRecord :=
  { name := "a", vers := ⟨1, 0, 0⟩, yanked := false, links := none,
    features := [("f", ["dep/g"]), ("dep", [])], deps := [exDepOptB] }

/-- Example: crate `b` with a feature `g`. -/
def exRecB : VersionRecord :=
  { name := "b", vers := ⟨1, 0, 0⟩, yanked := false, links := none,
    features := [("g", [])], deps := [] }

/-- Example index for the weak-feature scenario. -/
def exIdxWeak : Index :=
  { crates := [("a", [(⟨1, 0, 0⟩, exRecAWeak)]), ("b", [(⟨1, 0, 0⟩, exRecB)])],
    pastResult := none }

/-- Example index for the strong-feature scenario. -/
def exIdxStrong : Index :=
  { crates := [("a", [(⟨1, 0, 0⟩, exRecAStrong)]), ("b", [(⟨1, 0, 0⟩, exRecB)])],
    pastResult := none }

/-- Example: a dependency-free record of crate `a`. -/
def exRecTrivial : VersionRecord :=
  { name := "a", vers := ⟨1, 0, 0⟩, yanked := false, links := none,
    features := [], deps := [] }

/-- Example index holding only the trivial crate `a`. -/
def exIdxTrivial : Index :=
  { crates := [("a", [(⟨1, 0, 0⟩, exRecTrivial)])], pastResult := none }

/-- Example solution selecting the trivial root. -/
def exSolTrivial : SolMap := [(.Bucket "a" (.Major 1) true, ⟨1, 0, 0⟩)]

/-- Example: crate `b` carrying the links key `x`. -/
def exRecLinksB : VersionRecord :=
  { name := "b", vers := ⟨1, 0, 0⟩, yanked := false, links := some "x",
    features := [], deps := [] }

/-- Example index for the links-uniqueness scenario. -/
def exIdxLinks : Index :=
  { crates := [("a", [(⟨1, 0, 0⟩, exRecTrivial)]), ("b", [(⟨1, 0, 0⟩, exRecLinksB)])],
    pastResult := none }

/-- Example solution holding the trivial root, the links-carrying bucket of
`b`, and the `Links` node at the hash version `get_dependencies` pins. -/
def exSolLinks : SolMap :=
  [(.Bucket "a" (.Major 1) true, ⟨1, 0, 0⟩),
   (.Bucket "b" (.Major 1) false, ⟨1, 0, 0⟩),
   (.Links "x", ⟨stableHash64 (.Bucket "b" (.Major 1) false) ⟨1, 0, 0⟩, 0, 0⟩)]

/-- Example: a mandatory normal dependency on a crate, aliased by its own
name. -/
def exDepOn (p : String) : Dependency :=
  { name := p, package_name := p, req := .caret ⟨1, 0, 0⟩,
    pubgrub_req := .fromReq (.caret ⟨1, 0, 0⟩), kind := .Normal,
    optional := false, default_features := false, features := [] }

/-- Example: crate `a` depending on `b` (cyclic scenario). -/
def exRecCycA : VersionRecord :=
  { name := "a", vers := ⟨1, 0, 0⟩, yanked := false, links := none,
    features := [], deps := [exDepOn "b"] }

/-- Example: crate `b` depending on `a` (cyclic scenario). -/
def exRecCycB : VersionRecord :=
  { name := "b", vers := ⟨1, 0, 0⟩, yanked := false, links := none,
    features := [], deps := [exDepOn "a"] }

/-- Example index of the two-crate dependency cycle. -/
def exIdxCyc : Index :=
  { crates := [("a", [(⟨1, 0, 0⟩, exRecCycA)]), ("b", [(⟨1, 0, 0⟩, exRecCycB)])],
    pastResult := none }

/-- Example solution of the cyclic scenario. -/
def exSolCyc : SolMap :=
  [(.Bucket "a" (.Major 1) true, ⟨1, 0, 0⟩),
   (.Bucket "b" (.Major 1) false, ⟨1, 0, 0⟩),
   (.Bucket "a" (.Major 1) false, ⟨1, 0, 0⟩)]

/-- The reconstructed cycle-detector map of the cyclic scenario. -/
def exVertsCyc : CVertMap :=
  [(("a", .Major 1, true), ⟨⟨1, 0, 0⟩, [], []⟩),
   (("b", .Major 1, false), ⟨⟨1, 0, 0⟩, [], []⟩),
   (("a", .Major 1, false), ⟨⟨1, 0, 0⟩, [], []⟩)]

/-- Example: a yanked record of crate `b`. -/
def exRecYanked : VersionRecord :=
  { name := "b", vers := ⟨1, 0, 0⟩, yanked := true, links := none,
    features := [], deps := [] }

/-- Example index holding only the yanked `b`. -/
def exIdxYanked : Index :=
  { crates := [("b", [(⟨1, 0, 0⟩, exRecYanked)])], pastResult := none }

/-- The empty index. -/
def exIdxEmpty : Index := { crates := [], pastResult := none }

/-- Example index with three versions of `a` for the choose-version
scenario (list ascending, as the `BTreeMap` stores it). -/
def exIdxChoose : Index :=
  { crates := [("a",
      [(⟨1, 0, 0⟩, { exRecTrivial with vers := ⟨1, 0, 0⟩ }),
       (⟨1, 2, 0⟩, { exRecTrivial with vers := ⟨1, 2, 0⟩ }),
       (⟨2, 0, 0⟩, { exRecTrivial with vers := ⟨2, 0, 0⟩ })])],
    pastResult := none }

/-- Example: a dependency whose requirement spans several compatibility
classes and matches nothing in an empty index. -/
def exDepWide : Dependency :=
  { name := "w", package_name := "nope", req := .geLt ⟨1, 0, 0⟩ ⟨3, 0, 0⟩,
    pubgrub_req := .fromReq (.geLt ⟨1, 0, 0⟩ ⟨3, 0, 0⟩), kind := .Normal,
    optional := false, default_features := false, features := [] }

theorem Version.le_refl (a : Version) : Version.le a a = true := by
  simp [Version.le]

theorem Version.le_of_lt {a b : Version} (h : Version.lt a b = true) :
    Version.le a b = true := by
  simp [Version.le, h]

/-- C6: `should_cancel` increments its call counter on every invocation
(modulo the `u64` wrap) and returns an error exactly when the pre-increment
counter is a multiple of 64 and the elapsed time since the last reset
exceeds `TIME_CUT_OFF = 160` seconds, which is four times
`TIME_MAKE_FILE = 40`; on all other invocations it returns `Ok`. -/
theorem shouldCancel_spec (count : Nat) (elapsed : ℚ) :
    TIME_CUT_OFF = 160 ∧ TIME_CUT_OFF = TIME_MAKE_FILE * 4 ∧
    (shouldCancel count elapsed).2 = (count + 1) % 2 ^ 64 ∧
    ((shouldCancel count elapsed).1 = Except.error () ↔
      count % 64 = 0 ∧ TIME_CUT_OFF < elapsed) ∧
    ((shouldCancel count elapsed).1 = Except.ok () ↔
      ¬(count % 64 = 0 ∧ TIME_CUT_OFF < elapsed)) := by
  refine ⟨by norm_num [TIME_CUT_OFF, TIME_MAKE_FILE], rfl, ?_, ?_, ?_⟩ <;>
    by_cases h : count % 64 = 0 ∧ TIME_CUT_OFF < elapsed <;>
    simp [shouldCancel, h]

/-- C5 counterexample: on the shared `empty` constant the pointer-identity
shortcut of `is_disjoint` answers `false`, although the underlying sets are
disjoint (the claim asserts `is_disjoint(s, s)` is true for the empty
set). -/
theorem rc_is_disjoint_self_empty :
    RcSv.is_disjoint rcEmpty rcEmpty = some false ∧
    disjointSem rcEmpty.inner rcEmpty.inner := by
  refine ⟨rfl, ?_⟩
  intro v h
  simpa [rcEmpty, SvSet.contains] using h.1

/-- C5 amended: the same-argument short-circuit paths agree with the
underlying SemVer sets for intersection, union and subset; `is_disjoint`
on a pointer-identical pair always answers `false`, which disagrees with
the underlying computation exactly when the set is empty. -/
theorem rc_self_shortcuts (s : RcSv) :
    RcSv.intersection s s = s ∧
    (∀ v, (SvSet.inter s.inner s.inner).contains v = s.inner.contains v) ∧
    RcSv.union s s = s ∧
    (∀ v, (SvSet.union s.inner s.inner).contains v = s.inner.contains v) ∧
    RcSv.subset_of s s = some true ∧
    RcSv.is_disjoint s s = some false ∧
    (¬disjointSem s.inner s.inner ↔ ∃ v, s.inner.contains v = true) := by
  refine ⟨by simp [RcSv.intersection], fun v => by simp [SvSet.contains],
    by simp [RcSv.union], fun v => by simp [SvSet.contains],
    by simp [RcSv.subset_of], by simp [RcSv.is_disjoint], ?_⟩
  unfold disjointSem
  push_neg
  constructor
  · rintro ⟨v, h1, h2⟩
    exact ⟨v, h1⟩
  · rintro ⟨v, h⟩
    exact ⟨v, h, h⟩

/-- C8 counterexample: with an empty index and a singleton range, the
`Bucket` match count is 1 while the number of visible versions the range
contains is 0 (the claim asserts the count equals the latter). -/
theorem matchCount_singleton_mismatch :
    matchCount exIdxEmpty (.Bucket "a" (.Major 1) false) (.sing ⟨1, 0, 0⟩) = 1 ∧
    ((exIdxEmpty.get_versions "a").filter
      (fun v => SvSet.contains (.sing ⟨1, 0, 0⟩) v)).length = 0 := by
  decide

/-- C8 amended: the `match_count` component of `prioritize` is
`usize::MAX` for `Links`; for `Bucket` it is the number of visible versions
inside the range, except that a singleton range counts as 1 without
consulting the index; `BucketFeatures` and `BucketDefaultFeatures` add 1
(saturating) to the `Bucket` count, and `WideFeatures` and
`WideDefaultFeatures` add 1 (saturating) to the `Wide` count. -/
theorem matchCount_spec (idx : Index) (range : SvSet) :
    (∀ k, matchCount idx (.Links k) range = usizeMax) ∧
    (∀ n c r, matchCount idx (.Bucket n c r) range =
      (match range.asSingleton with
       | some _ => 1
       | none => ((idx.get_versions n).filter (fun v => range.contains v)).length)) ∧
    (∀ n c f r2, matchCount idx (.BucketFeatures n c f) range
        = satAdd1 (matchCount idx (.Bucket n c r2) range) ∧
      matchCount idx (.BucketDefaultFeatures n c) range
        = satAdd1 (matchCount idx (.Bucket n c r2) range)) ∧
    (∀ n req p pc f, matchCount idx (.WideFeatures n req p pc f) range
        = satAdd1 (matchCount idx (.Wide n req p pc) range) ∧
      matchCount idx (.WideDefaultFeatures n req p pc) range
        = satAdd1 (matchCount idx (.Wide n req p pc) range)) := by
  refine ⟨fun k => rfl, fun n c r => ?_, fun n c f r2 => ⟨rfl, rfl⟩,
    fun n req p pc f => ⟨rfl, rfl⟩⟩
  show countMatches idx range n = _
  unfold countMatches
  cases h : range.asSingleton <;> simp [h]

/-- C9: for `Bucket`, `BucketFeatures` and `BucketDefaultFeatures`
packages, `get_dependencies` returns `Err` exactly when the index view has
no record for the crate at that version; a present but yanked record gives
`Unavailable` with a yanked reason instead. -/
theorem getDependencies_missing_yanked (idx : Index) (package : Names) (version : Version)
    (h : (∃ n c r, package = Names.Bucket n c r) ∨
      (∃ n c f, package = Names.BucketFeatures n c f) ∨
      (∃ n c, package = Names.BucketDefaultFeatures n c)) :
    (getDependencies idx package version = .error () ↔
      idx.get_version package.crate version = none) ∧
    (∀ iv, idx.get_version package.crate version = some iv → iv.yanked = true →
      ∃ s, getDependencies idx package version = .ok (.Unavailable s) ∧
        (s = "yanked: Bucket" ∨ s = "yanked: BucketFeatures Feat" ∨
          s = "yanked: BucketFeatures DefaultFeatures" ∨
          s = "yanked: BucketFeatures Dep")) := by
  obtain ⟨n, c, r, rfl⟩ | ⟨n, c, f, rfl⟩ | ⟨n, c, rfl⟩ := h
  · cases hgv : idx.get_version n version with
    | none => exact ⟨by simp [getDependencies, Names.crate, hgv], by simp [Names.crate, hgv]⟩
    | some iv =>
      refine ⟨by simp [getDependencies, Names.crate, hgv]; split <;> simp, ?_⟩
      intro iv2 hiv2 hy
      rw [show Names.crate (.Bucket n c r) = n from rfl, hgv] at hiv2
      cases hiv2
      exact ⟨_, by simp [getDependencies, hgv, hy], Or.inl rfl⟩
  · cases hgv : idx.get_version n version with
    | none =>
      cases f <;>
        exact ⟨by simp [getDependencies, Names.crate, hgv], by simp [Names.crate, hgv]⟩
    | some iv =>
      cases f with
      | Feat ft =>
        refine ⟨by simp [getDependencies, Names.crate, hgv]; split <;> first | simp | (split <;> simp), ?_⟩
        intro iv2 hiv2 hy
        rw [show Names.crate (.BucketFeatures n c (.Feat ft)) = n from rfl, hgv] at hiv2
        cases hiv2
        exact ⟨_, by simp [getDependencies, hgv, hy], Or.inr (Or.inl rfl)⟩
      | Dep ft =>
        refine ⟨by simp [getDependencies, Names.crate, hgv]; split <;> first | simp | (split <;> simp), ?_⟩
        intro iv2 hiv2 hy
        rw [show Names.crate (.BucketFeatures n c (.Dep ft)) = n from rfl, hgv] at hiv2
        cases hiv2
        exact ⟨_, by simp [getDependencies, hgv, hy], Or.inr (Or.inr (Or.inr rfl))⟩
  · cases hgv : idx.get_version n version with
    | none => exact ⟨by simp [getDependencies, Names.crate, hgv], by simp [Names.crate, hgv]⟩
    | some iv =>
      refine ⟨by simp [getDependencies, Names.crate, hgv]; split <;> simp, ?_⟩
      intro iv2 hiv2 hy
      rw [show Names.crate (.BucketDefaultFeatures n c) = n from rfl, hgv] at hiv2
      cases hiv2
      exact ⟨_, by simp [getDependencies, hgv, hy], Or.inr (Or.inr (Or.inl rfl))⟩

/-- C9 witness: the yanked record of `b` gives `Unavailable`, and a missing
version gives `Err`, instantiating the theorem at the `Bucket` variant. -/
theorem getDependencies_missing_yanked_witness :
    (getDependencies exIdxYanked (.Bucket "b" (.Major 1) false) ⟨1, 0, 0⟩ = .error () ↔
      exIdxYanked.get_version (Names.Bucket "b" (.Major 1) false).crate ⟨1, 0, 0⟩ = none) ∧
    (∀ iv, exIdxYanked.get_version (Names.Bucket "b" (.Major 1) false).crate ⟨1, 0, 0⟩
        = some iv → iv.yanked = true →
      ∃ s, getDependencies exIdxYanked (.Bucket "b" (.Major 1) false) ⟨1, 0, 0⟩
          = .ok (.Unavailable s) ∧
        (s = "yanked: Bucket" ∨ s = "yanked: BucketFeatures Feat" ∨
          s = "yanked: BucketFeatures DefaultFeatures" ∨
          s = "yanked: BucketFeatures Dep")) :=
  getDependencies_missing_yanked exIdxYanked _ ⟨1, 0, 0⟩ (Or.inl ⟨"b", _, _, rfl⟩)

/-- C10: a dependency whose pre-converted requirement does not fix one
compatibility class and whose requirement matches no visible version
becomes a `Bucket` in the default class `Patch(0)` with the pre-converted
requirement as range — never a `Wide` shard. -/
theorem from_dep_empty_match_bucket (idx : Index) (dep : Dependency) (parent : String)
    (compat : SemverCompatibility)
    (h1 : dep.pubgrub_req.onlyOneCompatibilityRange = none)
    (h2 : (idx.get_versions dep.package_name).filter (fun v => reqMatches dep.req v) = []) :
    idx.from_dep dep parent compat =
      (Names.Bucket dep.package_name (.Patch 0) false, dep.pubgrub_req) := by
  unfold Index.from_dep Index.only_one_compatibility_range_in_data
  rw [h1, h2]
  rfl

/-- C10 witness: in the empty index the wide-range dependency on `nope`
matches nothing and still becomes a `Patch(0)` bucket. -/
theorem from_dep_empty_match_bucket_witness :
    (exDepWide.pubgrub_req.onlyOneCompatibilityRange = none ∧
      (exIdxEmpty.get_versions exDepWide.package_name).filter
        (fun v => reqMatches exDepWide.req v) = []) ∧
    exIdxEmpty.from_dep exDepWide "a" (.Major 1) =
      (Names.Bucket exDepWide.package_name (.Patch 0) false, exDepWide.pubgrub_req) :=
  ⟨⟨by decide, by decide⟩,
    from_dep_empty_match_bucket exIdxEmpty exDepWide "a" (.Major 1) (by decide) (by decide)⟩

theorem find_desc_greatest {l : List Version} (p : Version → Bool) (hs : SortedDesc l) :
    ∀ v, l.find? p = some v →
      v ∈ l ∧ p v = true ∧ ∀ w ∈ l, p w = true → Version.le w v = true := by
  induction l with
  | nil => intro v hv; simp at hv
  | cons a t ih =>
    intro v hv
    cases hpa : p a with
    | true =>
      rw [List.find?_cons_of_pos _ hpa] at hv
      cases hv
      refine ⟨List.mem_cons_self a t, hpa, ?_⟩
      intro w hw _
      rcases List.mem_cons.mp hw with rfl | hw
      · exact Version.le_refl w
      · exact Version.le_of_lt (List.rel_of_pairwise_cons hs hw)
    | false =>
      rw [List.find?_cons_of_neg _ (by simp [hpa])] at hv
      obtain ⟨hm, hp, hmax⟩ := ih (List.Pairwise.sublist (List.sublist_cons_self a t) hs) v hv
      refine ⟨List.mem_cons_of_mem a hm, hp, ?_⟩
      intro w hw hpw
      rcases List.mem_cons.mp hw with rfl | hw
      · rw [hpa] at hpw; cases hpw
      · exact hmax w hw hpw

/-- C7: for `Bucket`-family packages `choose_version` walks the visible
versions newest-first and returns the first (hence greatest) version inside
the range, `none` when no visible version is in the range; with an active
past-result overlay only versions in both the overlay and the crates map
are visible. -/
theorem chooseVersion_bucket_greatest (idx : Index) (package : Names) (range : SvSet)
    (hpkg : (∃ n c r, package = Names.Bucket n c r) ∨
      (∃ n c f, package = Names.BucketFeatures n c f) ∨
      (∃ n c, package = Names.BucketDefaultFeatures n c))
    (hs : SortedDesc (idx.get_versions package.crate)) :
    (∀ v, chooseVersion idx package range = .ok (some v) →
      v ∈ idx.get_versions package.crate ∧ range.contains v = true ∧
      ∀ w ∈ idx.get_versions package.crate, range.contains w = true →
        Version.le w v = true) ∧
    (chooseVersion idx package range = .ok none →
      ∀ w ∈ idx.get_versions package.crate, range.contains w = false) ∧
    (∀ past, idx.pastResult = some past →
      ∀ w, w ∈ idx.get_versions package.crate ↔
        (∃ vs, lookupStr past package.crate = some vs ∧ w ∈ vs) ∧
          idx.cratesHasVersion package.crate w = true) := by
  have hchoose : chooseVersion idx package range =
      .ok ((idx.get_versions package.crate).find? (fun v => range.contains v)) := by
    obtain ⟨n, c, r, rfl⟩ | ⟨n, c, f, rfl⟩ | ⟨n, c, rfl⟩ := hpkg <;> rfl
  refine ⟨?_, ?_, ?_⟩
  · intro v hv
    rw [hchoose] at hv
    exact find_desc_greatest _ hs v (Except.ok.inj hv)
  · intro hv w hw
    rw [hchoose] at hv
    have := List.find?_eq_none.mp (Except.ok.inj hv) w hw
    simpa using this
  · intro past hpast w
    unfold Index.get_versions
    rw [hpast]
    cases hl : lookupStr past package.crate with
    | none => simp [hl]
    | some vs => simp [hl, List.mem_filter, and_comm]

/-- C7 witness: on the three-version index, `^1.0.0` selects `1.2.0`, the
greatest visible version inside the range. -/
theorem chooseVersion_bucket_greatest_witness :
    (⟨1, 2, 0⟩ : Version) ∈ exIdxChoose.get_versions (Names.Bucket "a" (.Major 1) false).crate ∧
    SvSet.contains (.fromReq (.caret ⟨1, 0, 0⟩)) ⟨1, 2, 0⟩ = true ∧
    ∀ w ∈ exIdxChoose.get_versions (Names.Bucket "a" (.Major 1) false).crate,
      SvSet.contains (.fromReq (.caret ⟨1, 0, 0⟩)) w = true →
        Version.le w ⟨1, 2, 0⟩ = true :=
  (chooseVersion_bucket_greatest exIdxChoose (Names.Bucket "a" (.Major 1) false)
      (.fromReq (.caret ⟨1, 0, 0⟩)) (Or.inl ⟨"a", .Major 1, false, rfl⟩) (by decide)).1
    ⟨1, 2, 0⟩ (by rfl)

theorem check_true_run {idx : Index} {root : Names} {pubmap : SolMap}
    (h : check idx root pubmap = some true) : checkRun idx root pubmap = .ok () := by
  unfold check at h
  cases hr : checkRun idx root pubmap with
  | ok u => cases u; rfl
  | error e => rw [hr] at h; cases e <;> simp at h

theorem checkRun_ok_parts {idx : Index} {root : Names} {pubmap : SolMap}
    (h : checkRun idx root pubmap = .ok ()) :
    (solLookup pubmap root).isSome = true ∧
    checkDepsLoop idx pubmap pubmap = .ok () ∧
    ∃ verts0 verts1 verts, buildBuckets pubmap [] = .ok verts0 ∧
      addFeatures pubmap verts0 = .ok verts1 ∧ addDefaults pubmap verts1 = .ok verts ∧
      checkFinalLoop idx verts verts [] = .ok () := by
  unfold checkRun at h
  split at h
  · cases h
  next hw =>
    refine ⟨by cases hx : solLookup pubmap root with
      | none => rw [hx] at hw; simp at hw
      | some v => rfl, ?_⟩
    split at h
    next e h1 => cases h
    next u h1 =>
      refine ⟨h1, ?_⟩
      split at h
      next e h2 => cases h
      next verts0 h2 =>
        split at h
        next e h3 => cases h
        next verts1 h3 =>
          split at h
          next e h4 => cases h
          next verts h4 =>
            exact ⟨verts0, verts1, verts, h2, h3, h4, h⟩

theorem checkDepsLoop_ok {idx : Index} {pubmap : SolMap} :
    ∀ l, checkDepsLoop idx pubmap l = .ok () →
      ∀ k v, (k, v) ∈ l → checkDepsEntry idx pubmap k v = .ok () := by
  intro l
  induction l with
  | nil => intro _ k v hm; simp at hm
  | cons hd tl ih =>
    intro h k v hm
    obtain ⟨k0, v0⟩ := hd
    unfold checkDepsLoop at h
    cases he : checkDepsEntry idx pubmap k0 v0 with
    | error e => rw [he] at h; cases h
    | ok u =>
      cases u
      rw [he] at h
      rcases List.mem_cons.mp hm with heq | hm2
      · injection heq with h1 h2
        rw [h1, h2]
        exact he
      · exact ih h k v hm2

theorem checkDepsEntry_ok {idx : Index} {pubmap : SolMap} {k : Names} {v : Version}
    (h : checkDepsEntry idx pubmap k v = .ok ()) :
    ∃ c, getDependencies idx k v = .ok (.Available c) ∧
      ∀ k2 r, (k2, r) ∈ c → ∃ v2, solLookup pubmap k2 = some v2 ∧
        r.contains v2 = true := by
  unfold checkDepsEntry at h
  split at h
  next hg => cases h
  next s hg => cases h
  next c hg =>
    refine ⟨c, hg, ?_⟩
    intro k2 r hm
    split at h
    next hall =>
      have := List.all_eq_true.mp hall (k2, r) hm
      cases hsl : solLookup pubmap k2 with
      | none => rw [hsl] at this; cases this
      | some v2 =>
        rw [hsl] at this
        exact ⟨v2, rfl, this⟩
    next hall => cases h

/-- C2: when `check(root, S)` returns true, `root` is a key of `S` and
every `(k, v)` in `S` has `get_dependencies(k, v) = Available(C)` with
every constraint `(k2, r)` of `C` keyed in `S` at a version inside `r`. -/
theorem check_true_basic (idx : Index) (root : Names) (pubmap : SolMap)
    (h : check idx root pubmap = some true) :
    (solLookup pubmap root).isSome = true ∧
    ∀ k v, (k, v) ∈ pubmap → ∃ c, getDependencies idx k v = .ok (.Available c) ∧
      ∀ k2 r, (k2, r) ∈ c → ∃ v2, solLookup pubmap k2 = some v2 ∧
        r.contains v2 = true := by
  obtain ⟨hroot, hdeps, -⟩ := checkRun_ok_parts (check_true_run h)
  exact ⟨hroot, fun k v hm => checkDepsEntry_ok (checkDepsLoop_ok _ hdeps k v hm)⟩

/-- C2 witness: the trivial solution passes `check` and therefore satisfies
the basic dependency-resolution properties. -/
theorem check_true_basic_witness :
    (solLookup exSolTrivial (Names.Bucket "a" (.Major 1) true)).isSome = true ∧
    ∀ k v, (k, v) ∈ exSolTrivial →
      ∃ c, getDependencies exIdxTrivial k v = .ok (.Available c) ∧
        ∀ k2 r, (k2, r) ∈ c → ∃ v2, solLookup exSolTrivial k2 = some v2 ∧
          r.contains v2 = true :=
  check_true_basic exIdxTrivial (.Bucket "a" (.Major 1) true) exSolTrivial (by rfl)

/-- C1 counterexample: with feature `f = ["dep?/g"]` on `a` and `dep` the
alias of an optional non-Dev dependency, the constraints emitted for
`BucketFeatures(a, ^1, Feat f)` contain the optional-dep activation shard
`self.with_features(Dep(dep))` and a constraint on the dependency's
feature shard — the weak form does pull the dependency in, contrary to the
claim. -/
theorem weak_feature_pulls_dep_counterexample :
    getDependencies exIdxWeak (.BucketFeatures "a" (.Major 1) (.Feat "f")) ⟨1, 0, 0⟩
      = .ok (.Available
        [(.Bucket "a" (.Major 1) false, .sing ⟨1, 0, 0⟩),
         (.BucketFeatures "a" (.Major 1) (.Dep "dep"), .sing ⟨1, 0, 0⟩),
         (.BucketFeatures "b" (.Major 1) (.Feat "g"), .fromReq (.caret ⟨1, 0, 0⟩))]) ∧
    depsLookup
        [(.Bucket "a" (.Major 1) false, .sing ⟨1, 0, 0⟩),
         (.BucketFeatures "a" (.Major 1) (.Dep "dep"), .sing ⟨1, 0, 0⟩),
         (.BucketFeatures "b" (.Major 1) (.Feat "g"), .fromReq (.caret ⟨1, 0, 0⟩))]
        (.BucketFeatures "a" (.Major 1) (.Dep "dep")) = some (.sing ⟨1, 0, 0⟩) := by
  exact ⟨by decide, by decide⟩

/-- C1 amended: for a feature `f` with the single expression `dep?/g` or
`dep/g` over an optional non-Dev dependency aliased `dep` resolving to a
single-compat bucket of another crate, the emitted constraints pull the
dependency in under BOTH forms — the bucket anchor, the shard
`self.with_features(Dep(dep))` pinned to the version, and the child's
`Feat(g)` shard; the only difference is that the strong form additionally
activates the namesake feature shard `self.with_features(Feat(dep))` when a
feature named `dep` exists and `dep ≠ f`. -/
theorem weak_strong_feature_spec (idx : Index) (name : String)
    (compat : SemverCompatibility) (f val : String) (v : Version) (iv : VersionRecord)
    (d : Dependency) (dp g : String) (c' : SemverCompatibility)
    (hgv : idx.get_version name v = some iv)
    (hy : iv.yanked = false)
    (hfeat : featuresGet iv.features f = some [val])
    (hsplit : splitOnce val = some (dp, g))
    (hdep : depsGet iv.deps ((stripQm dp).getD dp) = [d])
    (hkind : ¬d.kind = DepKind.Dev)
    (hopt : d.optional = true)
    (hcompat : d.pubgrub_req.onlyOneCompatibilityRange = some c')
    (hne : ¬d.package_name = name) :
    (∀ depName, stripQm dp = some depName →
      getDependencies idx (.BucketFeatures name compat (.Feat f)) v = .ok (.Available
        [(.Bucket name (compatOf v) false, .sing v),
         (.BucketFeatures name compat (.Dep depName), .sing v),
         (.BucketFeatures d.package_name c' (.Feat g), d.pubgrub_req)])) ∧
    (stripQm dp = none → featuresContains iv.features dp = true → ¬dp = f →
      getDependencies idx (.BucketFeatures name compat (.Feat f)) v = .ok (.Available
        [(.Bucket name (compatOf v) false, .sing v),
         (.BucketFeatures name compat (.Dep dp), .sing v),
         (.BucketFeatures name compat (.Feat dp), .sing v),
         (.BucketFeatures d.package_name c' (.Feat g), d.pubgrub_req)])) := by
  have hfd : idx.from_dep d name (compatOf v)
      = (.Bucket d.package_name c' false, d.pubgrub_req) := by
    unfold Index.from_dep
    rw [hcompat]
    rfl
  constructor
  · intro depName hweak
    rw [hweak] at hdep
    simp only [Option.getD_some] at hdep
    simp only [getDependencies, hgv, hy, Bool.false_eq_true, if_false, hfeat]
    simp only [featValLoop, List.foldl_cons, List.foldl_nil, hsplit, hweak, hdep, hfd,
      Option.getD_some, hopt, if_true]
    simp [depsInsert, Names.with_features, hne, Ne.symm hne, hkind]
  · intro hstrong hnamesake hnef
    rw [hstrong] at hdep
    simp only [Option.getD_none] at hdep
    simp only [getDependencies, hgv, hy, Bool.false_eq_true, if_false, hfeat]
    simp only [featValLoop, List.foldl_cons, List.foldl_nil, hsplit, hstrong, hdep, hfd,
      Option.getD_none, hopt, if_true]
    simp [depsInsert, Names.with_features, hne, Ne.symm hne, hnamesake, hnef, hkind]

/-- C1 witness: the weak scenario emits exactly the anchor, the
dep-activation shard and the child feature shard; the strong scenario with
a namesake feature additionally emits the namesake shard. -/
theorem weak_strong_feature_spec_witness :
    getDependencies exIdxWeak (.BucketFeatures "a" (.Major 1) (.Feat "f")) ⟨1, 0, 0⟩
      = .ok (.Available
        [(.Bucket "a" (.Major 1) false, .sing ⟨1, 0, 0⟩),
         (.BucketFeatures "a" (.Major 1) (.Dep "dep"), .sing ⟨1, 0, 0⟩),
         (.BucketFeatures "b" (.Major 1) (.Feat "g"), .fromReq (.caret ⟨1, 0, 0⟩))]) ∧
    getDependencies exIdxStrong (.BucketFeatures "a" (.Major 1) (.Feat "f")) ⟨1, 0, 0⟩
      = .ok (.Available
        [(.Bucket "a" (.Major 1) false, .sing ⟨1, 0, 0⟩),
         (.BucketFeatures "a" (.Major 1) (.Dep "dep"), .sing ⟨1, 0, 0⟩),
         (.BucketFeatures "a" (.Major 1) (.Feat "dep"), .sing ⟨1, 0, 0⟩),
         (.BucketFeatures "b" (.Major 1) (.Feat "g"), .fromReq (.caret ⟨1, 0, 0⟩))]) :=
  ⟨(weak_strong_feature_spec exIdxWeak "a" (.Major 1) "f" "dep?/g" ⟨1, 0, 0⟩ exRecAWeak
      exDepOptB "dep?" "g" (.Major 1) (by decide) rfl (by decide) (by decide) (by decide)
      (by decide) rfl (by decide) (by decide)).1 "dep" (by decide),
   (weak_strong_feature_spec exIdxStrong "a" (.Major 1) "f" "dep/g" ⟨1, 0, 0⟩ exRecAStrong
      exDepOptB "dep" "g" (.Major 1) (by decide) rfl (by decide) (by decide) (by decide)
      (by decide) rfl (by decide) (by decide)).2 (by decide) (by decide) (by decide)⟩

theorem vertLookup_cons (hd : (String × SemverCompatibility) × VEntry) (tl : VertMap)
    (k : String × SemverCompatibility) :
    vertLookup (hd :: tl) k = if hd.1 = k then some hd.2 else vertLookup tl k := by
  unfold vertLookup
  by_cases hk : hd.1 = k
  · rw [List.find?_cons_of_pos _ (by simp [hk]), if_pos hk]
    rfl
  · rw [List.find?_cons_of_neg _ (by simp [hk]), if_neg hk]

theorem vertLookup_append_of_none {m : VertMap} {k : String × SemverCompatibility}
    (h : vertLookup m k = none) (e : VEntry) :
    vertLookup (m ++ [(k, e)]) k = some e := by
  induction m with
  | nil => simp [vertLookup]
  | cons hd tl ih =>
    rw [vertLookup_cons] at h
    rw [List.cons_append, vertLookup_cons]
    split at h
    · cases h
    next hk => rw [if_neg hk]; exact ih h

theorem vertLookup_append_mono {m : VertMap} {k : String × SemverCompatibility} {e : VEntry}
    (h : vertLookup m k = some e) (p : (String × SemverCompatibility) × VEntry) :
    vertLookup (m ++ [p]) k = some e := by
  induction m with
  | nil => simp [vertLookup] at h
  | cons hd tl ih =>
    rw [vertLookup_cons] at h
    rw [List.cons_append, vertLookup_cons]
    split at h
    next hk => rw [if_pos hk]; exact h
    next hk => rw [if_neg hk]; exact ih h

theorem buildBuckets_tail {names : Names} {ver : Version} {tl : SolMap} {acc out : VertMap}
    (h : buildBuckets ((names, ver) :: tl) acc = .ok out) :
    ∃ acc2, buildBuckets tl acc2 = .ok out ∧
      ∀ k e, vertLookup acc k = some e → vertLookup acc2 k = some e := by
  cases names with
  | Bucket name cap isRoot =>
    simp only [buildBuckets] at h
    split at h
    · split at h
      · exact ⟨acc, h, fun _ _ he => he⟩
      · split at h
        · cases h
        · exact ⟨_, h, fun k e he => vertLookup_append_mono he _⟩
    · cases h
  | BucketFeatures name cap feat => exact ⟨acc, by simpa only [buildBuckets] using h, fun _ _ he => he⟩
  | BucketDefaultFeatures name cap => exact ⟨acc, by simpa only [buildBuckets] using h, fun _ _ he => he⟩
  | Wide a b c d => exact ⟨acc, by simpa only [buildBuckets] using h, fun _ _ he => he⟩
  | WideFeatures a b c d f => exact ⟨acc, by simpa only [buildBuckets] using h, fun _ _ he => he⟩
  | WideDefaultFeatures a b c d => exact ⟨acc, by simpa only [buildBuckets] using h, fun _ _ he => he⟩
  | Links a => exact ⟨acc, by simpa only [buildBuckets] using h, fun _ _ he => he⟩

theorem buildBuckets_preserves :
    ∀ (l : SolMap) (acc out : VertMap), buildBuckets l acc = .ok out →
      ∀ k e, vertLookup acc k = some e → vertLookup out k = some e := by
  intro l
  induction l with
  | nil => intro acc out h k e he; cases h; exact he
  | cons hd tl ih =>
    intro acc out h k e he
    obtain ⟨names, ver⟩ := hd
    obtain ⟨acc2, h2, hpres⟩ := buildBuckets_tail h
    exact ih acc2 out h2 k e (hpres k e he)

theorem buildBuckets_mem :
    ∀ (l : SolMap) (acc out : VertMap), buildBuckets l acc = .ok out →
      ∀ n c v, (Names.Bucket n c false, v) ∈ l →
        ∃ e, vertLookup out (n, c) = some e ∧ e.ver = v := by
  intro l
  induction l with
  | nil => intro acc out _ n c v hm; simp at hm
  | cons hd tl ih =>
    intro acc out h n c v hm
    obtain ⟨names, ver⟩ := hd
    rcases List.mem_cons.mp hm with heq | hm2
    · injection heq with h1 h2
      subst h2
      rw [← h1] at h
      simp only [buildBuckets] at h
      split at h
      · rw [if_neg (by simp)] at h
        split at h
        · cases h
        next hnone =>
          refine ⟨⟨v, [], [], false⟩, ?_, rfl⟩
          refine buildBuckets_preserves tl _ out h (n, c) _ ?_
          exact vertLookup_append_of_none (by
            cases hv : vertLookup acc (n, c) with
            | none => rfl
            | some e => rw [hv] at hnone; simp at hnone) _
      · cases h
    · obtain ⟨acc2, h2, -⟩ := buildBuckets_tail h
      exact ih acc2 out h2 n c v hm2

theorem vertLookup_update (m : VertMap) (k : String × SemverCompatibility) (e : VEntry)
    (k2 : String × SemverCompatibility) :
    vertLookup (vertUpdate m k e) k2 =
      if k2 = k then (vertLookup m k).map (fun _ => e) else vertLookup m k2 := by
  induction m with
  | nil => simp [vertUpdate, vertLookup]
  | cons hd tl ih =>
    obtain ⟨k0, e0⟩ := hd
    show vertLookup ((if k0 = k then (k0, e) else (k0, e0)) :: vertUpdate tl k e) k2 =
      if k2 = k then (vertLookup ((k0, e0) :: tl) k).map (fun _ => e)
      else vertLookup ((k0, e0) :: tl) k2
    by_cases h1 : k0 = k
    · by_cases h2 : k2 = k
      · subst h1; subst h2
        simp [vertLookup_cons]
      · subst h1
        simp [vertLookup_cons, ih, h2, show ¬k0 = k2 from fun hh => h2 hh.symm]
    · by_cases h2 : k2 = k
      · subst h2
        simp [vertLookup_cons, ih, h1]
      · simp [vertLookup_cons, ih, h1, h2]

theorem vertLookup_mem {m : VertMap} {k : String × SemverCompatibility} {e : VEntry}
    (h : vertLookup m k = some e) : (k, e) ∈ m := by
  unfold vertLookup at h
  cases hf : List.find? (fun p => p.1 = k) m with
  | none => rw [hf] at h; cases h
  | some q =>
    rw [hf] at h
    have hq1 : q.1 = k := by simpa using List.find?_some hf
    have hq2 : q.2 = e := by simpa using h
    have := List.mem_of_find?_eq_some hf
    rwa [show q = (k, e) from Prod.ext hq1 hq2] at this

theorem addFeatures_ver :
    ∀ (l : SolMap) (acc out : VertMap), addFeatures l acc = .ok out →
      ∀ k, (vertLookup out k).map VEntry.ver = (vertLookup acc k).map VEntry.ver := by
  intro l
  induction l with
  | nil => intro acc out h k; cases h; rfl
  | cons hd tl ih =>
    intro acc out h k
    obtain ⟨names, ver⟩ := hd
    cases names with
    | BucketFeatures name cap feat =>
      simp only [addFeatures] at h
      split at h
      · split at h
        · cases h
        next e he =>
          split at h
          · split at h
            next f =>
              split at h
              · cases h
              · rw [ih _ _ h k, vertLookup_update]
                split
                next hk => rw [hk, he]; rfl
                next hk => rfl
            next f =>
              split at h
              · cases h
              · rw [ih _ _ h k, vertLookup_update]
                split
                next hk => rw [hk, he]; rfl
                next hk => rfl
          · cases h
      · cases h
    | Bucket name cap isRoot => exact ih _ _ (by simpa only [addFeatures] using h) k
    | BucketDefaultFeatures name cap => exact ih _ _ (by simpa only [addFeatures] using h) k
    | Wide a b c d => exact ih _ _ (by simpa only [addFeatures] using h) k
    | WideFeatures a b c d f => exact ih _ _ (by simpa only [addFeatures] using h) k
    | WideDefaultFeatures a b c d => exact ih _ _ (by simpa only [addFeatures] using h) k
    | Links a => exact ih _ _ (by simpa only [addFeatures] using h) k

theorem addDefaults_ver :
    ∀ (l : SolMap) (acc out : VertMap), addDefaults l acc = .ok out →
      ∀ k, (vertLookup out k).map VEntry.ver = (vertLookup acc k).map VEntry.ver := by
  intro l
  induction l with
  | nil => intro acc out h k; cases h; rfl
  | cons hd tl ih =>
    intro acc out h k
    obtain ⟨names, ver⟩ := hd
    cases names with
    | BucketDefaultFeatures name cap =>
      simp only [addDefaults] at h
      split at h
      · split at h
        · cases h
        next e he =>
          split at h
          · split at h
            · cases h
            · rw [ih _ _ h k, vertLookup_update]
              split
              next hk => rw [hk, he]; rfl
              next hk => rfl
          · cases h
      · cases h
    | Bucket name cap isRoot => exact ih _ _ (by simpa only [addDefaults] using h) k
    | BucketFeatures name cap feat => exact ih _ _ (by simpa only [addDefaults] using h) k
    | Wide a b c d => exact ih _ _ (by simpa only [addDefaults] using h) k
    | WideFeatures a b c d f => exact ih _ _ (by simpa only [addDefaults] using h) k
    | WideDefaultFeatures a b c d => exact ih _ _ (by simpa only [addDefaults] using h) k
    | Links a => exact ih _ _ (by simpa only [addDefaults] using h) k

theorem checkVertEntryRest_ok {idx : Index} {verts : VertMap} {e : VEntry}
    {iv : VersionRecord} {links2 out : List String}
    (h : checkVertEntryRest idx verts e iv links2 = .ok out) : out = links2 := by
  unfold checkVertEntryRest at h
  split at h
  · cases h
  · split at h
    · exact (Except.ok.inj h).symm
    · cases h

theorem checkVertEntry_links {idx : Index} {verts : VertMap} {name : String} {e : VEntry}
    {links links2 : List String}
    (h : checkVertEntry idx verts name e links = .ok links2) :
    ∃ iv, idx.get_version name e.ver = some iv ∧
      ((∃ x, iv.links = some x ∧ x ∉ links ∧ links2 = x :: links) ∨
        (iv.links = none ∧ links2 = links)) := by
  unfold checkVertEntry at h
  split at h
  · cases h
  next iv hiv =>
    split at h
    · cases h
    · split at h
      next l hl =>
        split at h
        · cases h
        next hmem =>
          exact ⟨iv, hiv, Or.inl ⟨l, hl, hmem, checkVertEntryRest_ok h⟩⟩
      next hl =>
        exact ⟨iv, hiv, Or.inr ⟨hl, checkVertEntryRest_ok h⟩⟩

theorem checkFinalLoop_notin {idx : Index} {verts : VertMap} :
    ∀ (l : VertMap) (links : List String), checkFinalLoop idx verts l links = .ok () →
      ∀ k e, (k, e) ∈ l → ∀ iv x, idx.get_version k.1 e.ver = some iv →
        iv.links = some x → x ∉ links := by
  intro l
  induction l with
  | nil => intro links _ k e hm; simp at hm
  | cons hd tl ih =>
    intro links h k e hm iv x hiv hx
    obtain ⟨k0, e0⟩ := hd
    unfold checkFinalLoop at h
    split at h
    · cases h
    next links2 hcve =>
      rcases List.mem_cons.mp hm with heq | hm2
      · injection heq with ha hb
        subst ha
        subst hb
        obtain ⟨iv0, hiv0, hcase⟩ := checkVertEntry_links hcve
        rw [hiv] at hiv0
        obtain rfl := (Option.some.inj hiv0).symm
        rcases hcase with ⟨x0, hx0, hnot, -⟩ | ⟨hnone, -⟩
        · rw [hx] at hx0
          obtain rfl := Option.some.inj hx0
          exact hnot
        · rw [hx] at hnone; cases hnone
      · have hnot2 := ih links2 h k e hm2 iv x hiv hx
        obtain ⟨iv0, hiv0, hcase⟩ := checkVertEntry_links hcve
        rcases hcase with ⟨x0, -, -, rfl⟩ | ⟨-, rfl⟩
        · exact fun hmem => hnot2 (List.mem_cons_of_mem _ hmem)
        · exact hnot2

theorem checkFinalLoop_links_unique {idx : Index} {verts : VertMap} :
    ∀ (l : VertMap) (links : List String), checkFinalLoop idx verts l links = .ok () →
      ∀ k1 e1 k2 e2, (k1, e1) ∈ l → (k2, e2) ∈ l → ¬k1 = k2 →
        ∀ iv1 iv2 x, idx.get_version k1.1 e1.ver = some iv1 →
          idx.get_version k2.1 e2.ver = some iv2 →
          iv1.links = some x → iv2.links = some x → False := by
  intro l
  induction l with
  | nil => intro links _ k1 e1 k2 e2 hm1; simp at hm1
  | cons hd tl ih =>
    intro links h k1 e1 k2 e2 hm1 hm2 hne iv1 iv2 x hiv1 hiv2 hx1 hx2
    obtain ⟨k0, e0⟩ := hd
    unfold checkFinalLoop at h
    split at h
    · cases h
    next links2 hcve =>
      rcases List.mem_cons.mp hm1 with heq1 | hm1t
      · injection heq1 with ha hb
        subst ha
        subst hb
        rcases List.mem_cons.mp hm2 with heq2 | hm2t
        · injection heq2 with hc hd2
          exact hne hc.symm
        · obtain ⟨iv0, hiv0, hcase⟩ := checkVertEntry_links hcve
          rw [hiv1] at hiv0
          obtain rfl := (Option.some.inj hiv0).symm
          rcases hcase with ⟨x0, hx0, -, rfl⟩ | ⟨hnone, -⟩
          · rw [hx1] at hx0
            obtain rfl := Option.some.inj hx0
            exact checkFinalLoop_notin tl _ h k2 e2 hm2t iv2 x hiv2 hx2
              (List.mem_cons_self _ _)
          · rw [hx1] at hnone; cases hnone
      · rcases List.mem_cons.mp hm2 with heq2 | hm2t
        · injection heq2 with hc hd2
          subst hc
          subst hd2
          obtain ⟨iv0, hiv0, hcase⟩ := checkVertEntry_links hcve
          rw [hiv2] at hiv0
          obtain rfl := (Option.some.inj hiv0).symm
          rcases hcase with ⟨x0, hx0, -, rfl⟩ | ⟨hnone, -⟩
          · rw [hx2] at hx0
            obtain rfl := Option.some.inj hx0
            exact checkFinalLoop_notin tl _ h k1 e1 hm1t iv1 x hiv1 hx1
              (List.mem_cons_self _ _)
          · rw [hx2] at hnone; cases hnone
        · exact ih links2 h k1 e1 k2 e2 hm1t hm2t hne iv1 iv2 x hiv1 hiv2 hx1 hx2

/-- C3: when `check` succeeds, at most one selected non-root bucket carries
any given `links` key — two bucket selections whose records share a `links`
key must be the same bucket. -/
theorem check_true_links_unique (idx : Index) (root : Names) (pubmap : SolMap)
    (h : check idx root pubmap = some true) :
    ∀ p1 c1 v1 p2 c2 v2 r1 r2 l,
      (Names.Bucket p1 c1 false, v1) ∈ pubmap →
      (Names.Bucket p2 c2 false, v2) ∈ pubmap →
      idx.get_version p1 v1 = some r1 →
      idx.get_version p2 v2 = some r2 →
      r1.links = some l → r2.links = some l →
      (p1, c1) = (p2, c2) := by
  obtain ⟨-, -, verts0, verts1, verts, hb, hfe, hde, hfin⟩ :=
    checkRun_ok_parts (check_true_run h)
  intro p1 c1 v1 p2 c2 v2 r1 r2 l hm1 hm2 hg1 hg2 hl1 hl2
  by_contra hne
  obtain ⟨e1, he1, hv1⟩ := buildBuckets_mem pubmap [] verts0 hb p1 c1 v1 hm1
  obtain ⟨e2, he2, hv2⟩ := buildBuckets_mem pubmap [] verts0 hb p2 c2 v2 hm2
  have hm1v : (vertLookup verts (p1, c1)).map VEntry.ver = some v1 := by
    rw [addDefaults_ver _ verts1 verts hde (p1, c1),
      addFeatures_ver _ verts0 verts1 hfe (p1, c1), he1]
    simp [hv1]
  have hm2v : (vertLookup verts (p2, c2)).map VEntry.ver = some v2 := by
    rw [addDefaults_ver _ verts1 verts hde (p2, c2),
      addFeatures_ver _ verts0 verts1 hfe (p2, c2), he2]
    simp [hv2]
  cases hf1 : vertLookup verts (p1, c1) with
  | none => rw [hf1] at hm1v; cases hm1v
  | some f1 =>
    cases hf2 : vertLookup verts (p2, c2) with
    | none => rw [hf2] at hm2v; cases hm2v
    | some f2 =>
      rw [hf1] at hm1v
      rw [hf2] at hm2v
      have hp1 : f1.ver = v1 := by simpa using hm1v
      have hp2 : f2.ver = v2 := by simpa using hm2v
      refine checkFinalLoop_links_unique verts [] hfin (p1, c1) f1 (p2, c2) f2
        (vertLookup_mem hf1) (vertLookup_mem hf2) hne r1 r2 l ?_ ?_ hl1 hl2
      · rw [show ((p1, c1) : String × SemverCompatibility).1 = p1 from rfl, hp1]
        exact hg1
      · rw [show ((p2, c2) : String × SemverCompatibility).1 = p2 from rfl, hp2]
        exact hg2

/-- C3 witness: the links-carrying solution passes `check`, and applying
the uniqueness theorem to the single links bucket twice is consistent. -/
theorem check_true_links_unique_witness :
    ("b", SemverCompatibility.Major 1) = ("b", SemverCompatibility.Major 1) :=
  check_true_links_unique exIdxLinks (.Bucket "a" (.Major 1) true) exSolLinks (by rfl)
    "b" (.Major 1) ⟨1, 0, 0⟩ "b" (.Major 1) ⟨1, 0, 0⟩ exRecLinksB exRecLinksB "x"
    (by decide) (by decide) (by decide) (by decide) (by decide) (by decide)

theorem Reach.snoc {E : NodeId → NodeId → Prop} {a b c : NodeId}
    (h : Reach E a b) (he : E b c) : Reach E a c := by
  induction h with
  | refl a => exact Reach.step he (Reach.refl c)
  | step hab hbc ih => exact Reach.step hab (ih he)

theorem cycle_rotate {E : NodeId → NodeId → Prop} {a y : NodeId}
    (he : E a y) (hr : Reach E y a) : CycleFrom E y := by
  cases hr with
  | refl => exact ⟨a, he, Reach.refl a⟩
  | step hyb hba => exact ⟨_, hyb, Reach.snoc hba he⟩

theorem StackOk.reach {E : NodeId → NodeId → Prop} {root : NodeId} :
    ∀ {v : List NodeId} {cur : NodeId}, StackOk E root v cur → Reach E root cur := by
  intro v cur h
  induction h with
  | nil => exact Reach.refl root
  | cons he _ ih => exact Reach.snoc ih he

theorem StackOk.mem_cycle {E : NodeId → NodeId → Prop} {root : NodeId} :
    ∀ {v : List NodeId} {cur : NodeId}, StackOk E root v cur →
      ∀ {b : NodeId}, b ∈ v → ∃ c, E b c ∧ Reach E c cur := by
  intro v cur h
  induction h with
  | nil => intro b hb; simp at hb
  | cons he hs ih =>
    intro b hb
    rcases List.mem_cons.mp hb with rfl | hb2
    · exact ⟨_, he, Reach.refl _⟩
    · obtain ⟨c, hbc, hr2⟩ := ih hb2
      exact ⟨c, hbc, Reach.snoc hr2 he⟩

theorem visitDeps_sound (idx : Index) (pubmap : SolMap) (verts : CVertMap) (root : NodeId)
    (fuel : Nat)
    (hP : ∀ id v ch, visit idx pubmap verts fuel id v ch = some .cycle →
      StackOk (cycleEdge idx pubmap verts) root v id →
      ∃ x, Reach (cycleEdge idx pubmap verts) root x ∧
        CycleFrom (cycleEdge idx pubmap verts) x) :
    ∀ (ds : List Dependency) (pid : NodeId) (e : CEntry) (iv : VersionRecord)
      (v ch : List NodeId),
      cvertLookup verts pid = some e →
      idx.get_version pid.1 e.ver = some iv →
      (∀ d, d ∈ ds → d ∈ iv.deps) →
      visitDeps idx pubmap (fun b v2 c2 => visit idx pubmap verts fuel b v2 c2)
          pid.1 e.ver pid.2.2 e.depsAct ds (pid :: v) ch = some .cycle →
      StackOk (cycleEdge idx pubmap verts) root v pid →
      ∃ x, Reach (cycleEdge idx pubmap verts) root x ∧
        CycleFrom (cycleEdge idx pubmap verts) x := by
  intro ds
  induction ds with
  | nil =>
    intro pid e iv v ch _ _ _ h _
    simp [visitDeps] at h
  | cons dep rest ih =>
    intro pid e iv v ch he hiv hsub h hstack
    rw [visitDeps] at h
    split at h
    · exact ih pid e iv v ch he hiv (fun d hd => hsub d (List.mem_cons_of_mem _ hd)) h hstack
    next hdev =>
      split at h
      · exact ih pid e iv v ch he hiv (fun d hd => hsub d (List.mem_cons_of_mem _ hd)) h hstack
      next hopt =>
        split at h
        · cases h
        next depVer hsol =>
          have hedge : cycleEdge idx pubmap verts pid (dep.package_name, compatOf depVer, false) :=
            ⟨e, iv, dep, depVer, he, hiv, hsub dep (List.mem_cons_self _ _), hdev, hopt,
              hsol, rfl⟩
          split at h
          · cases h
          next hvis =>
            exact hP _ _ _ hvis (StackOk.cons hedge hstack)
          next ch2 hvis =>
            exact ih pid e iv v ch2 he hiv (fun d hd => hsub d (List.mem_cons_of_mem _ hd))
              h hstack

theorem visit_sound (idx : Index) (pubmap : SolMap) (verts : CVertMap) (root : NodeId) :
    ∀ (fuel : Nat) (id : NodeId) (v ch : List NodeId),
      visit idx pubmap verts fuel id v ch = some .cycle →
      StackOk (cycleEdge idx pubmap verts) root v id →
      ∃ x, Reach (cycleEdge idx pubmap verts) root x ∧
        CycleFrom (cycleEdge idx pubmap verts) x := by
  intro fuel
  induction fuel with
  | zero => intro id v ch h _; simp [visit] at h
  | succ f ih =>
    intro id v ch h hstack
    rw [visit] at h
    split at h
    next hmem => exact ⟨id, StackOk.reach hstack, StackOk.mem_cycle hstack hmem⟩
    next hmem =>
      split at h
      · simp at h
      next hch =>
        split at h
        · cases h
        next e he =>
          split at h
          · cases h
          next iv hiv =>
            exact visitDeps_sound idx pubmap verts root f ih iv.deps id e iv v (id :: ch)
              he hiv (fun d hd => hd) h hstack

theorem BlackOk_mono {E : NodeId → NodeId → Prop} {ch ch2 : List NodeId} {x : NodeId}
    (hsub : ∀ y, y ∈ ch → y ∈ ch2) (h : BlackOk E ch x) : BlackOk E ch2 x :=
  ⟨fun y hy => hsub y (h.1 y hy), h.2⟩

theorem visitDeps_complete (idx : Index) (pubmap : SolMap) (verts : CVertMap) (fuel : Nat)
    (hP : ∀ (id : NodeId) (v ch ch2 : List NodeId),
      visit idx pubmap verts fuel id v ch = some (.done ch2) →
      DfsInv (cycleEdge idx pubmap verts) v ch →
      id ∉ v ∧ (∀ x, x ∈ ch → x ∈ ch2) ∧
        DfsInv (cycleEdge idx pubmap verts) v ch2 ∧ id ∈ ch2) :
    ∀ (ds : List Dependency) (pid : NodeId) (e : CEntry) (v ch ch2 : List NodeId),
      visitDeps idx pubmap (fun b v2 c2 => visit idx pubmap verts fuel b v2 c2)
          pid.1 e.ver pid.2.2 e.depsAct ds (pid :: v) ch = some (.done ch2) →
      DfsInv (cycleEdge idx pubmap verts) (pid :: v) ch →
      (∀ x, x ∈ ch → x ∈ ch2) ∧ DfsInv (cycleEdge idx pubmap verts) (pid :: v) ch2 ∧
      ∀ dep, dep ∈ ds → ¬dep.kind = DepKind.Dev →
        ¬(dep.optional = true ∧ pid.2.2 = false ∧ ¬dep.name ∈ e.depsAct) →
        ∀ depVer,
          solLookup pubmap (idx.from_dep dep pid.1 (compatOf e.ver)).1 = some depVer →
          (dep.package_name, compatOf depVer, false) ∈ ch2 ∧
          ¬(dep.package_name, compatOf depVer, false) ∈ (pid :: v) := by
  intro ds
  induction ds with
  | nil =>
    intro pid e v ch ch2 h hinv
    obtain rfl : ch = ch2 := by simpa [visitDeps] using h
    exact ⟨fun x hx => hx, hinv, fun dep hdep => by simp at hdep⟩
  | cons dep rest ih =>
    intro pid e v ch ch2 h hinv
    rw [visitDeps] at h
    split at h
    next hdev2 =>
      obtain ⟨hmono, hinv2, hfacts⟩ := ih pid e v ch ch2 h hinv
      refine ⟨hmono, hinv2, ?_⟩
      intro d hd hdev hopt depVer hsol
      rcases List.mem_cons.mp hd with rfl | hd2
      · exact absurd hdev2 hdev
      · exact hfacts d hd2 hdev hopt depVer hsol
    next hdev2 =>
      split at h
      next hopt2 =>
        obtain ⟨hmono, hinv2, hfacts⟩ := ih pid e v ch ch2 h hinv
        refine ⟨hmono, hinv2, ?_⟩
        intro d hd hdev hopt depVer hsol
        rcases List.mem_cons.mp hd with rfl | hd2
        · exact absurd hopt2 hopt
        · exact hfacts d hd2 hdev hopt depVer hsol
      next hopt2 =>
        split at h
        · cases h
        next depVer0 hsol0 =>
          split at h
          · cases h
          next hvis => simp at h
          next chm hvis =>
            obtain ⟨hnotv, hmono1, hinv1, hchild⟩ := hP _ _ _ _ hvis hinv
            obtain ⟨hmono2, hinv2, hfacts⟩ := ih pid e v chm ch2 h hinv1
            refine ⟨fun x hx => hmono2 x (hmono1 x hx), hinv2, ?_⟩
            intro d hd hdev hopt depVer hsol
            rcases List.mem_cons.mp hd with rfl | hd2
            · rw [hsol0] at hsol
              obtain rfl := Option.some.inj hsol
              exact ⟨hmono2 _ hchild, hnotv⟩
            · exact hfacts d hd2 hdev hopt depVer hsol

theorem visit_complete (idx : Index) (pubmap : SolMap) (verts : CVertMap) :
    ∀ (fuel : Nat) (id : NodeId) (v ch ch2 : List NodeId),
      visit idx pubmap verts fuel id v ch = some (.done ch2) →
      DfsInv (cycleEdge idx pubmap verts) v ch →
      id ∉ v ∧ (∀ x, x ∈ ch → x ∈ ch2) ∧
        DfsInv (cycleEdge idx pubmap verts) v ch2 ∧ id ∈ ch2 := by
  intro fuel
  induction fuel with
  | zero => intro id v ch ch2 h _; simp [visit] at h
  | succ f ih =>
    intro id v ch ch2 h hinv
    rw [visit] at h
    split at h
    next hmem => simp at h
    next hmem =>
      split at h
      next hch =>
        obtain rfl : ch = ch2 := by simpa using h
        exact ⟨hmem, fun x hx => hx, hinv, hch⟩
      next hch =>
        split at h
        · cases h
        next e he =>
          split at h
          · cases h
          next iv hiv =>
            have hinv2 : DfsInv (cycleEdge idx pubmap verts) (id :: v) (id :: ch) := by
              intro x hx hxv
              have hxne : ¬x = id := fun hh => hxv (hh ▸ List.mem_cons_self id v)
              have hxch : x ∈ ch := by
                rcases List.mem_cons.mp hx with hh | hx2
                · exact absurd hh hxne
                · exact hx2
              have hxv2 : x ∉ v := fun hh => hxv (List.mem_cons_of_mem _ hh)
              exact BlackOk_mono (fun y hy => List.mem_cons_of_mem _ hy) (hinv x hxch hxv2)
            obtain ⟨hmono, hinv3, hfacts⟩ :=
              visitDeps_complete idx pubmap verts f ih iv.deps id e v (id :: ch) ch2 h hinv2
            refine ⟨hmem, fun x hx => hmono x (List.mem_cons_of_mem _ hx), ?_,
              hmono id (List.mem_cons_self _ _)⟩
            intro x hx hxv
            by_cases hxid : x = id
            · subst hxid
              constructor
              · intro y hy
                obtain ⟨e2, iv2, dep, depVer, he2, hiv2, hdep, hdev, hopt, hsol, rfl⟩ := hy
                rw [he] at he2
                obtain rfl := (Option.some.inj he2).symm
                rw [hiv] at hiv2
                obtain rfl := (Option.some.inj hiv2).symm
                exact (hfacts dep hdep hdev hopt depVer hsol).1
              · rintro ⟨y, hey, hry⟩
                obtain ⟨e2, iv2, dep, depVer, he2, hiv2, hdep, hdev, hopt, hsol, hyeq⟩ := hey
                rw [he] at he2
                obtain rfl := (Option.some.inj he2).symm
                rw [hiv] at hiv2
                obtain rfl := (Option.some.inj hiv2).symm
                obtain ⟨hych, hynotv⟩ := hfacts dep hdep hdev hopt depVer hsol
                subst hyeq
                have hblack := hinv3 _ hych hynotv
                exact hblack.2 (cycle_rotate
                  ⟨_, _, dep, depVer, he, hiv, hdep, hdev, hopt, hsol, rfl⟩ hry)
            · refine hinv3 x hx ?_
              intro hh
              rcases List.mem_cons.mp hh with h1 | h2
              · exact hxid h1
              · exact hxv h2

theorem reach_closed {E : NodeId → NodeId → Prop} {ch : List NodeId}
    (hinv : DfsInv E [] ch) :
    ∀ {a b : NodeId}, Reach E a b → a ∈ ch → b ∈ ch := by
  intro a b h
  induction h with
  | refl => exact fun hm => hm
  | step hab _ ih => exact fun ha => ih ((hinv _ ha (List.not_mem_nil _)).1 _ hab)

/-- C4: with the per-bucket view reconstructed from the solution map,
`check_cycles` on a `Bucket` root returns true exactly when the dependency
graph of the selected buckets — non-Dev edges, skipping optional deps
inactive on a non-root parent — has a cycle reachable from the root (the
panic paths of the original, modelled as `none`, return no boolean). -/
theorem checkCycles_iff_cycle (idx : Index) (pubmap : SolMap) (name : String)
    (cap : SemverCompatibility) (isRoot : Bool) (verts : CVertMap)
    (hverts : (buildCycleBuckets pubmap []).bind (addCycleFeatures pubmap) = some verts) :
    (checkCycles idx (.Bucket name cap isRoot) pubmap = some true →
      CycleReachable (cycleEdge idx pubmap verts) (name, cap, isRoot)) ∧
    (checkCycles idx (.Bucket name cap isRoot) pubmap = some false →
      ¬CycleReachable (cycleEdge idx pubmap verts) (name, cap, isRoot)) := by
  obtain ⟨verts0, hb, ha⟩ : ∃ v0, buildCycleBuckets pubmap [] = some v0 ∧
      addCycleFeatures pubmap v0 = some verts := by
    cases hbb : buildCycleBuckets pubmap [] with
    | none => rw [hbb] at hverts; cases hverts
    | some v0 => rw [hbb] at hverts; exact ⟨v0, rfl, hverts⟩
  have hcc : checkCycles idx (.Bucket name cap isRoot) pubmap =
      (match visit idx pubmap verts (verts.length + 2) (name, cap, isRoot) [] [] with
       | none => none
       | some .cycle => some true
       | some (.done _) => some false) := by
    unfold checkCycles
    rw [hb]
    dsimp only
    rw [ha]
  cases hv : visit idx pubmap verts (verts.length + 2) (name, cap, isRoot) [] [] with
  | none =>
    rw [hv] at hcc
    exact ⟨fun hh => absurd (hcc ▸ hh) (by simp), fun hh => absurd (hcc ▸ hh) (by simp)⟩
  | some res =>
    cases res with
    | cycle =>
      rw [hv] at hcc
      constructor
      · intro _
        exact visit_sound idx pubmap verts (name, cap, isRoot) _ _ _ _ hv StackOk.nil
      · intro hh
        rw [hcc] at hh
        simp at hh
    | done ch2 =>
      rw [hv] at hcc
      constructor
      · intro hh
        rw [hcc] at hh
        simp at hh
      · intro _
        obtain ⟨-, -, hinv, hroot⟩ := visit_complete idx pubmap verts _ _ _ _ _ hv
          (fun x hx => absurd hx (List.not_mem_nil x))
        rintro ⟨x, hrx, hcx⟩
        exact (hinv x (reach_closed hinv hrx hroot) (List.not_mem_nil x)).2 hcx

/-- C4 witness: the two-crate cyclic solution makes `check_cycles` return
true, and the theorem yields the cycle reachable from the root. -/
theorem checkCycles_iff_cycle_witness :
    CycleReachable (cycleEdge exIdxCyc exSolCyc exVertsCyc) ("a", .Major 1, true) :=
  (checkCycles_iff_cycle exIdxCyc exSolCyc "a" (.Major 1) true exVertsCyc (by decide)).1
    (by decide)

end Resolver
